import Mathlib

/-!
Verification development for the Hibiki music-synchronization engine
(`hibiki/core.py`, `hibiki/config.py`).

The Python code is shallowly embedded as executable Lean definitions:

* tracks are records carrying the fields the engine reads
  (`iTunesTrack` in `hibiki/itunes.py`);
* the destination state store (the `library_data` JSON dictionary) is an
  insertion-ordered association list from persistent id to relative path;
* the destination file system is an association list from relative path
  to file size in bytes; `os.remove` deletes the entry, `open(p, "wb")`
  followed by a full copy overwrites or appends the entry;
* Python's signed integers are `Int` where signs matter (space budgets),
  byte sizes are `Nat` (a track's `Size` field is a non-negative count);
* callbacks are modelled by boolean flags plus an event trace;
* `random.sample` without replacement over the catalog is modelled by an
  explicitly passed draw order (a list of tracks).
-/

/-- Track record with the fields of `iTunesTrack` read by the sync engine:
`persistent_id`, `track_id`, `album`, `artist`, `genre`, `size` and the
basename of its location (`filename`).  `album`, `artist`, `genre` default
to `None` in the source, hence `Option String`. -/
structure Track where
  persistent_id : String
  track_id : Nat
  album : Option String
  artist : Option String
  genre : Option String
  size : Nat
  filename : String
deriving DecidableEq

/-- Python membership test of an optional string in a set of strings:
`None in {strings}` is `False`. -/
def optMem (o : Option String) (l : List String) : Bool :=
  match o with
  | none => false
  | some s => l.contains s

/-- State of a `HibikiConfigFilters` object (`hibiki/config.py`): the four
name sets plus the resolved track-id set.  Python sets are modelled as
lists queried through `contains`. -/
structure HibikiConfigFilters where
  albums : List String
  artists : List String
  genres : List String
  playlists : List String
  tracks : List Nat
deriving DecidableEq

/-- Embedding of `HibikiConfigFilters.is_filtered`: true if the track's
album, artist or genre is in the corresponding set, or its track id is in
the resolved track-id set. -/
def HibikiConfigFilters.is_filtered (f : HibikiConfigFilters) (t : Track) : Bool :=
  optMem t.album f.albums || optMem t.artist f.artists || optMem t.genre f.genres
    || f.tracks.contains t.track_id

/-- Playlist as read by the engine: a name and the member track ids. -/
structure Playlist where
  name : String
  tracks : List Nat
deriving DecidableEq

/-- Embedding of `HibikiConfigFilters.get_playlist_tracks`: adds the track
ids of every playlist whose name is selected to the filter's resolved
track-id set. -/
def get_playlist_tracks (playlists : List Playlist) (f : HibikiConfigFilters) :
    HibikiConfigFilters :=
  { f with tracks :=
      f.tracks ++ (playlists.filter (fun p => f.playlists.contains p.name)).flatMap Playlist.tracks }

/-- Lookup in an association list (first matching key), the model of
Python dictionary indexing and of `os.stat` on the destination tree. -/
def lookupKey {α : Type} : List (String × α) → String → Option α
  | [], _ => none
  | (k, v) :: rest, key => if k = key then some v else lookupKey rest key

/-- Removal of the first entry with the given key, the model of
`os.remove` on the destination tree. -/
def eraseKey {α : Type} : List (String × α) → String → List (String × α)
  | [], _ => []
  | (k, v) :: rest, key => if k = key then rest else (k, v) :: eraseKey rest key

/-- Insert-or-overwrite, the model of Python dictionary assignment and of
opening a destination file for writing. -/
def upsert {α : Type} : List (String × α) → String → α → List (String × α)
  | [], key, v => [(key, v)]
  | (k, w) :: rest, key, v => if k = key then (key, v) :: rest else (k, w) :: upsert rest key v

/-- Total number of bytes occupied by the files of the destination tree. -/
def usedBytes (disk : List (String × Nat)) : Nat :=
  (disk.map Prod.snd).sum

/-- Embedding of `Hibiki.space_available`: free bytes on the destination
volume minus the reserve (in MB).  The volume is modelled by its usable
capacity `cap`, so the raw free space `f_bavail * f_frsize` is
`cap - usedBytes disk`. -/
def space_available (cap : Int) (disk : List (String × Nat)) (reserve : Int) : Int :=
  (cap - usedBytes disk) - reserve * 1024 * 1024

/-- Loop of `Hibiki.calculate_space`: for every state-store entry, stat
the file; if missing, drop the entry, otherwise add its size to the
running total.  Returns the total and the pruned store. -/
def calculate_space_loop (disk : List (String × Nat)) :
    List (String × String) → Int → Int × List (String × String)
  | [], available => (available, [])
  | (tid, path) :: rest, available =>
    match lookupKey disk path with
    | none => calculate_space_loop disk rest available
    | some sz =>
      let r := calculate_space_loop disk rest (available + sz)
      (r.1, (tid, path) :: r.2)

/-- Embedding of `Hibiki.calculate_space`: available space if all tracked
files were removed, starting from `space_available` with the default 5 MB
reserve; the pruned store is written back (returned). -/
def calculate_space (cap : Int) (disk : List (String × Nat))
    (store : List (String × String)) : Int × List (String × String) :=
  calculate_space_loop disk store (space_available cap disk 5)

/-- Embedding of the `Hibiki.library_data` getter: the parsed contents of
the state file, or the empty mapping when `json.load` raises `ValueError`
(malformed contents, including the zero-byte file auto-created by
`HibikiConfig.library_path`).  `contents = none` models the parse failure. -/
def library_data (contents : Option (List (String × String))) :
    List (String × String) :=
  match contents with
  | none => []
  | some data => data

/-- Fields of a parsed filter persistence file; `none` models an absent
field. -/
structure FilterFileData where
  albums : Option (List String)
  artists : Option (List String)
  genres : Option (List String)
  playlists : Option (List String)
deriving DecidableEq

/-- Result of attempting to open and parse a filter persistence file. -/
inductive FilterFileRead where
  | missing
  | malformed
  | parsed (data : FilterFileData)
deriving DecidableEq

/-- Errors that `HibikiConfigFilters.load_from_file` can raise:
`fileNotFoundError` is the builtin `FileNotFoundError` escaping from
`open`, `invalidConfigError` is `hibiki.exceptions.InvalidConfigError`. -/
inductive LoadFilterError where
  | fileNotFoundError
  | invalidConfigError
deriving DecidableEq

/-- Embedding of `HibikiConfigFilters.load_from_file`: `open` raises
`FileNotFoundError` for a missing file (existence is not pre-checked,
unlike `HibikiConfig.load_config_file`); a `json.load` failure is wrapped
in `InvalidConfigError`; otherwise each of the four groups is set to the
corresponding field, defaulting to the empty list.  The resolved track-id
set is not among the loaded groups and is left unchanged. -/
def load_from_file (f : HibikiConfigFilters) (file : FilterFileRead) :
    Except LoadFilterError HibikiConfigFilters :=
  match file with
  | .missing => .error .fileNotFoundError
  | .malformed => .error .invalidConfigError
  | .parsed d =>
    .ok { f with
          albums := d.albums.getD []
          artists := d.artists.getD []
          genres := d.genres.getD []
          playlists := d.playlists.getD [] }

/-- Main admission loop of `Hibiki.generate_sync_list` (the `for track in
self.itunes.tracks` pass): excluded tracks are skipped, an included track
is admitted when the remaining space covers its size, in which case the
space drops by exactly the size and the persistent id joins the plan. -/
def main_pass (ex inc : HibikiConfigFilters) :
    List Track → Int → Finset String → Int × Finset String
  | [], space, plan => (space, plan)
  | t :: rest, space, plan =>
    if ex.is_filtered t then main_pass ex inc rest space plan
    else if inc.is_filtered t then
      if (t.size : Int) ≤ space then
        main_pass ex inc rest (space - t.size) (insert t.persistent_id plan)
      else main_pass ex inc rest space plan
    else main_pass ex inc rest space plan

/-- Random-fill loop of `Hibiki.generate_sync_list`: the draw order (the
result of repeated `random.sample` without replacement over the catalog)
is passed explicitly; a drawn track is admitted when it is not excluded,
not already planned, and the remaining space covers its size. -/
def fill_pass (ex : HibikiConfigFilters) :
    List Track → Int → Finset String → Int × Finset String
  | [], space, plan => (space, plan)
  | t :: rest, space, plan =>
    if ex.is_filtered t then fill_pass ex rest space plan
    else if t.persistent_id ∈ plan then fill_pass ex rest space plan
    else if (t.size : Int) ≤ space then
      fill_pass ex rest (space - t.size) (insert t.persistent_id plan)
    else fill_pass ex rest space plan

/-- Trace of the tracks admitted by `main_pass`, in admission order. -/
def main_admitted (ex inc : HibikiConfigFilters) : List Track → Int → List Track
  | [], _ => []
  | t :: rest, space =>
    if ex.is_filtered t then main_admitted ex inc rest space
    else if inc.is_filtered t then
      if (t.size : Int) ≤ space then t :: main_admitted ex inc rest (space - t.size)
      else main_admitted ex inc rest space
    else main_admitted ex inc rest space

/-- Trace of the tracks admitted by `fill_pass`, in admission order. -/
def fill_admitted (ex : HibikiConfigFilters) :
    List Track → Int → Finset String → List Track
  | [], _, _ => []
  | t :: rest, space, plan =>
    if ex.is_filtered t then fill_admitted ex rest space plan
    else if t.persistent_id ∈ plan then fill_admitted ex rest space plan
    else if (t.size : Int) ≤ space then
      t :: fill_admitted ex rest (space - t.size) (insert t.persistent_id plan)
    else fill_admitted ex rest space plan

/-- Planning portion of `Hibiki.generate_sync_list`: the main admission
pass over the catalog followed, when `config.random_fill` is set, by the
random-fill pass over the draw order. -/
def generate_plan (ex inc : HibikiConfigFilters) (randomFill : Bool)
    (catalog fillOrder : List Track) (space : Int) (plan : Finset String) :
    Int × Finset String :=
  let m := main_pass ex inc catalog space plan
  if randomFill then fill_pass ex fillOrder m.1 m.2 else m

/-- Tracks admitted by `generate_plan` across both phases, in admission
order. -/
def plan_admitted (ex inc : HibikiConfigFilters) (randomFill : Bool)
    (catalog fillOrder : List Track) (space : Int) (plan : Finset String) :
    List Track :=
  let m := main_pass ex inc catalog space plan
  main_admitted ex inc catalog space ++
    (if randomFill then fill_admitted ex fillOrder m.1 m.2 else [])

/-- Total size (as an integer byte count) of a list of tracks. -/
def admittedSizes (l : List Track) : Int :=
  (l.map (fun t => (t.size : Int))).sum

/-- Persistent ids of a list of tracks, as a set. -/
def idsOf (l : List Track) : Finset String :=
  (l.map Track.persistent_id).toFinset

/-- Embedding of `Hibiki._clean_sync_list` over the state store (iterated
in insertion order), the plan (`self.tracks`) and the destination tree.
A store key in the plan is removed from the plan and its entry kept; for
a key not in the plan the destination file is removed — when the file is
already absent the `FileNotFoundError` handler fires the error callback
and `continue` skips the `del`, so the entry is kept.  Returns the store
written back, the reduced plan (`tracks_to_copy`) and the tree. -/
def clean_sync_list :
    List (String × String) → Finset String → List (String × Nat) →
      List (String × String) × Finset String × List (String × Nat)
  | [], plan, disk => ([], plan, disk)
  | (tid, path) :: rest, plan, disk =>
    if tid ∈ plan then
      let r := clean_sync_list rest (plan.erase tid) disk
      ((tid, path) :: r.1, r.2.1, r.2.2)
    else
      match lookupKey disk path with
      | some _ => clean_sync_list rest plan (eraseKey disk path)
      | none =>
        let r := clean_sync_list rest plan disk
        ((tid, path) :: r.1, r.2.1, r.2.2)

/-- Outcome of one `Hibiki._copy_file` call, decided by the environment:
success, an `OSError` before the destination file is created (e.g. the
source is missing), or an `OSError` mid-copy leaving a partial
destination file of `written` bytes. -/
inductive CopyOutcome where
  | success
  | failNoDest
  | failPartial (written : Nat)
deriving DecidableEq

/-- Callback firings observable from `Hibiki.copy_tracks`. -/
inductive CopyEvent where
  | beforeCopy (tid : String)
  | afterCopy (tid : String)
  | errorCopy (tid : String)
deriving DecidableEq

/-- Mutable state of a `Hibiki.copy_tracks` run: the local `destination`
variable (`none` while unbound), the state store, the destination tree,
the fired callbacks, and the uncaught exception (by Python class name)
that aborted the loop, if any. -/
structure CopyState where
  destVar : Option String
  store : List (String × String)
  disk : List (String × Nat)
  events : List CopyEvent
  raised : Option String
deriving DecidableEq

/-- Effect of `if not end_signal: end_signal = False` at the top of
`Hibiki.copy_tracks`: the flag's truthiness is observed once (index 0);
a falsy flag is rebound to the constant `False`, a truthy flag stays live
and the `while` condition performs the subsequent observations. -/
def copy_step_signal (signal : Nat → Bool) : Nat → Bool :=
  if signal 0 then fun n => signal (n + 1) else fun _ => false

/-- Loop body of `Hibiki.copy_tracks`.  For each catalog track (after the
per-iteration signal observation) whose persistent id is in the plan:
fire `before_callback`, attempt the copy into the destination root
(subfoldering disabled, so the relative path is the track's filename).
On success, bind `destination`, write the file, `_mark_file` the track
and fire `after_callback`.  On `OSError`, the handler runs
`os.remove(destination)` with the *previous* value of `destination` —
`UnboundLocalError` when no prior copy succeeded, `FileNotFoundError`
when that path is gone, both uncaught — then fires `error_callback` and
`continue`s; without an error callback it falls through to `_mark_file`
and `after_callback` for the failed track. -/
def copy_tracks_loop (outcome : Track → CopyOutcome)
    (hasBeforeCb hasErrCb hasAfterCb : Bool) (sig : Nat → Bool)
    (plan : Finset String) :
    List Track → Nat → CopyState → CopyState
  | [], _, st => st
  | t :: rest, n, st =>
    if sig n then st
    else if t.persistent_id ∈ plan then
      let st1 :=
        if hasBeforeCb then
          { st with events := st.events ++ [CopyEvent.beforeCopy t.persistent_id] }
        else st
      match outcome t with
      | .success =>
        let st2 := { st1 with
                     destVar := some t.filename
                     disk := upsert st1.disk t.filename t.size }
        let st3 := { st2 with store := upsert st2.store t.persistent_id t.filename }
        let st4 :=
          if hasAfterCb then
            { st3 with events := st3.events ++ [CopyEvent.afterCopy t.persistent_id] }
          else st3
        copy_tracks_loop outcome hasBeforeCb hasErrCb hasAfterCb sig plan rest (n + 1) st4
      | .failNoDest =>
        match st1.destVar with
        | none => { st1 with raised := some "UnboundLocalError" }
        | some d =>
          match lookupKey st1.disk d with
          | none => { st1 with raised := some "FileNotFoundError" }
          | some _ =>
            let st2 := { st1 with disk := eraseKey st1.disk d }
            if hasErrCb then
              let st3 := { st2 with
                           events := st2.events ++ [CopyEvent.errorCopy t.persistent_id] }
              copy_tracks_loop outcome hasBeforeCb hasErrCb hasAfterCb sig plan rest (n + 1) st3
            else
              let st3 := { st2 with store := upsert st2.store t.persistent_id d }
              let st4 :=
                if hasAfterCb then
                  { st3 with events := st3.events ++ [CopyEvent.afterCopy t.persistent_id] }
                else st3
              copy_tracks_loop outcome hasBeforeCb hasErrCb hasAfterCb sig plan rest (n + 1) st4
      | .failPartial written =>
        let stp := { st1 with disk := upsert st1.disk t.filename written }
        match stp.destVar with
        | none => { stp with raised := some "UnboundLocalError" }
        | some d =>
          match lookupKey stp.disk d with
          | none => { stp with raised := some "FileNotFoundError" }
          | some _ =>
            let st2 := { stp with disk := eraseKey stp.disk d }
            if hasErrCb then
              let st3 := { st2 with
                           events := st2.events ++ [CopyEvent.errorCopy t.persistent_id] }
              copy_tracks_loop outcome hasBeforeCb hasErrCb hasAfterCb sig plan rest (n + 1) st3
            else
              let st3 := { st2 with store := upsert st2.store t.persistent_id d }
              let st4 :=
                if hasAfterCb then
                  { st3 with events := st3.events ++ [CopyEvent.afterCopy t.persistent_id] }
                else st3
              copy_tracks_loop outcome hasBeforeCb hasErrCb hasAfterCb sig plan rest (n + 1) st4
    else copy_tracks_loop outcome hasBeforeCb hasErrCb hasAfterCb sig plan rest (n + 1) st

/-- Embedding of `Hibiki.copy_tracks`: normalizes the signal, then runs
the loop over the catalog from a fresh local state (the `destination`
variable unbound). -/
def copy_tracks (outcome : Track → CopyOutcome)
    (hasBeforeCb hasErrCb hasAfterCb : Bool) (signal : Nat → Bool)
    (plan : Finset String) (catalog : List Track)
    (store : List (String × String)) (disk : List (String × Nat)) : CopyState :=
  copy_tracks_loop outcome hasBeforeCb hasErrCb hasAfterCb
    (copy_step_signal signal) plan catalog 0
    { destVar := none, store := store, disk := disk, events := [], raised := none }

/-- Loop of the `Hibiki.target_directory` property with subfoldering on.
`folders` holds, per index, `some c` when the numbered folder exists and
contains `c` visible files, `none` when it does not exist; indices past
the list do not exist.  The loop returns at the first index that either
does not exist (`os.makedirs` branch) or has fewer than `maxCount`
visible files; otherwise `self._subfolder` advances.  The fuel argument
is an upper bound on the iterations actually possible. -/
def target_directory_loop (maxCount : Nat) (folders : List (Option Nat)) :
    Nat → Nat → Nat
  | 0, i => i
  | fuel + 1, i =>
    match folders.getD i none with
    | none => i
    | some c => if c < maxCount then i else target_directory_loop maxCount folders fuel (i + 1)

/-- Embedding of `Hibiki.target_directory` (subfoldering enabled): the
chosen folder index, which is also the value left in `self._subfolder`. -/
def target_directory (maxCount : Nat) (folders : List (Option Nat)) (i : Nat) : Nat :=
  target_directory_loop maxCount folders (folders.length + 1) i

/-- Write `v` at index `i` of the folder-state list, extending the list
with non-existing folders as needed. -/
def folder_set : List (Option Nat) → Nat → Option Nat → List (Option Nat)
  | [], 0, v => [v]
  | [], n + 1, v => none :: folder_set [] n v
  | _ :: rest, 0, v => v :: rest
  | x :: rest, n + 1, v => x :: folder_set rest n v

/-- One copy into the subfolder layout: choose the target directory from
the current folder states and `self._subfolder`, then account for the one
visible file the copy places there (creating the folder when absent).
Returns the new folder states and the chosen index, which is also the
new `self._subfolder`. -/
def copy_into (maxCount : Nat) (s : List (Option Nat) × Nat) :
    List (Option Nat) × Nat :=
  let d := target_directory maxCount s.1 s.2
  (folder_set s.1 d (some ((s.1.getD d none).getD 0 + 1)), d)

/-- State of a `Hibiki` engine object together with the destination tree:
the two filter objects, `self.tracks`, the state store and the files on
the destination. -/
structure EngineState where
  excludes : HibikiConfigFilters
  includes : HibikiConfigFilters
  tracks : Finset String
  store : List (String × String)
  disk : List (String × Nat)
deriving DecidableEq

/-- Embedding of `Hibiki.generate_sync_list`: compute the effective
budget (pruning the store), resolve playlist selections into track ids on
both filter objects, run the admission passes, then reconcile with
`_clean_sync_list`. -/
def generate_sync_list (playlists : List Playlist) (randomFill : Bool)
    (catalog fillOrder : List Track) (cap : Int) (s : EngineState) : EngineState :=
  let cs := calculate_space cap s.disk s.store
  let ex := get_playlist_tracks playlists s.excludes
  let inc := get_playlist_tracks playlists s.includes
  let gp := generate_plan ex inc randomFill catalog fillOrder cs.1 s.tracks
  let cl := clean_sync_list cs.2 gp.2 s.disk
  { excludes := ex, includes := inc, tracks := cl.2.1, store := cl.1, disk := cl.2.2 }

/-- One full run of the pipeline (`generate_sync_list` then
`copy_tracks`), as driven by the CLI.  `copy_tracks` leaves `self.tracks`
untouched. -/
def run_pipeline (playlists : List Playlist) (randomFill : Bool)
    (catalog fillOrder : List Track) (cap : Int) (outcome : Track → CopyOutcome)
    (hasBeforeCb hasErrCb hasAfterCb : Bool) (signal : Nat → Bool)
    (s : EngineState) : EngineState :=
  let s1 := generate_sync_list playlists randomFill catalog fillOrder cap s
  let c := copy_tracks outcome hasBeforeCb hasErrCb hasAfterCb signal
    s1.tracks catalog s1.store s1.disk
  { s1 with store := c.store, disk := c.disk }

/-- Filter object with no rules (matches nothing). -/
def filtersNone : HibikiConfigFilters := ⟨[], [], [], [], []⟩

/-- Filter object selecting album `A`. -/
def filtersAlbumA : HibikiConfigFilters := ⟨["A"], [], [], [], []⟩

/-- Example track of 600 bytes on album `A`. -/
def trackA1 : Track := ⟨"t1", 1, some "A", none, none, 600, "f1"⟩

/-- Example track of 500 bytes on album `A`. -/
def trackA2 : Track := ⟨"t2", 2, some "A", none, none, 500, "f2"⟩

/-- Example track of 600 bytes with no album (matched by no name rule). -/
def trackP1 : Track := ⟨"t1", 1, none, none, none, 600, "f1"⟩

/-- Second example track of 600 bytes with no album. -/
def trackP2 : Track := ⟨"t2", 2, none, none, none, 600, "f2"⟩

/-- Copy environment in which every copy succeeds. -/
def outcomeAllSuccess : Track → CopyOutcome := fun _ => CopyOutcome.success

/-- Copy environment in which the copy of track `t2` raises `OSError`
after 100 bytes were written and every other copy succeeds. -/
def outcomeFailSecond : Track → CopyOutcome :=
  fun t => if t.persistent_id = "t2" then CopyOutcome.failPartial 100 else CopyOutcome.success

/-- Copy environment in which every copy raises `OSError` after 7
written bytes. -/
def outcomeAllPartial : Track → CopyOutcome := fun _ => CopyOutcome.failPartial 7

/-- Cancellation flag that is never set. -/
def signalNever : Nat → Bool := fun _ => false

/-- Cancellation flag that is falsy when `copy_tracks` starts and truthy
at every later observation (a caller cancelling right after the run
begins). -/
def signalAfterEntry : Nat → Bool := fun n => decide (1 ≤ n)

/-- Cancellation flag that is always truthy. -/
def signalAlways : Nat → Bool := fun _ => true

/-! ### Association-list lemmas -/

theorem lookupKey_append_some {α : Type} (l₁ l₂ : List (String × α)) (k : String) (v : α)
    (h : lookupKey l₁ k = some v) : lookupKey (l₁ ++ l₂) k = some v := by
  induction l₁ with
  | nil => simp [lookupKey] at h
  | cons e rest ih =>
    rcases e with ⟨a, b⟩
    by_cases hak : a = k <;> simp_all [lookupKey]

theorem lookupKey_append_none {α : Type} (l₁ l₂ : List (String × α)) (k : String)
    (h : lookupKey l₁ k = none) : lookupKey (l₁ ++ l₂) k = lookupKey l₂ k := by
  induction l₁ with
  | nil => simp [lookupKey]
  | cons e rest ih =>
    rcases e with ⟨a, b⟩
    by_cases hak : a = k <;> simp_all [lookupKey]

theorem lookupKey_eraseKey_ne {α : Type} (l : List (String × α)) (p k : String)
    (h : k ≠ p) : lookupKey (eraseKey l p) k = lookupKey l k := by
  induction l with
  | nil => simp [eraseKey]
  | cons e rest ih =>
    rcases e with ⟨a, b⟩
    by_cases hap : a = p
    · subst hap
      simp [eraseKey, lookupKey, Ne.symm h]
    · by_cases hak : a = k <;> simp_all [eraseKey, lookupKey]

theorem lookupKey_eraseKey_none {α : Type} (l : List (String × α)) (p k : String)
    (h : lookupKey l k = none) : lookupKey (eraseKey l p) k = none := by
  induction l with
  | nil => simp [eraseKey, lookupKey]
  | cons e rest ih =>
    rcases e with ⟨a, b⟩
    by_cases hap : a = p <;> by_cases hak : a = k <;> simp_all [eraseKey, lookupKey]

theorem lookupKey_eq_none_of_not_mem {α : Type} (l : List (String × α)) (k : String)
    (h : k ∉ l.map Prod.fst) : lookupKey l k = none := by
  induction l with
  | nil => simp [lookupKey]
  | cons e rest ih =>
    rcases e with ⟨a, b⟩
    simp only [List.map_cons, List.mem_cons, not_or] at h
    simp only [lookupKey, if_neg (Ne.symm h.1)]
    exact ih h.2

theorem eraseKey_keys_sublist {α : Type} (l : List (String × α)) (p : String) :
    ((eraseKey l p).map Prod.fst).Sublist (l.map Prod.fst) := by
  induction l with
  | nil => simp [eraseKey]
  | cons e rest ih =>
    rcases e with ⟨a, b⟩
    by_cases hap : a = p
    · simp only [eraseKey, if_pos hap]
      exact List.sublist_cons_self _ _
    · simpa [eraseKey, hap] using ih.cons₂ a

theorem lookupKey_eraseKey_self {α : Type} (l : List (String × α)) (p : String)
    (h : (l.map Prod.fst).Nodup) : lookupKey (eraseKey l p) p = none := by
  induction l with
  | nil => simp [eraseKey, lookupKey]
  | cons e rest ih =>
    rcases e with ⟨a, b⟩
    simp only [List.map_cons, List.nodup_cons] at h
    by_cases hap : a = p
    · subst hap
      simp only [eraseKey, if_pos rfl]
      exact lookupKey_eq_none_of_not_mem rest a h.1
    · simp only [eraseKey, if_neg hap, lookupKey, if_neg hap]
      exact ih h.2

theorem eraseKey_of_lookup_none {α : Type} (l : List (String × α)) (p : String)
    (h : lookupKey l p = none) : eraseKey l p = l := by
  induction l with
  | nil => simp [eraseKey]
  | cons e rest ih =>
    rcases e with ⟨a, b⟩
    by_cases hap : a = p <;> simp_all [eraseKey, lookupKey]

theorem usedBytes_eraseKey (l : List (String × Nat)) (p : String) (sz : Nat)
    (h : lookupKey l p = some sz) : usedBytes (eraseKey l p) + sz = usedBytes l := by
  induction l with
  | nil => simp [lookupKey] at h
  | cons e rest ih =>
    rcases e with ⟨a, b⟩
    by_cases hap : a = p
    · subst hap
      rw [show lookupKey ((a, b) :: rest) a = some b from by simp [lookupKey]] at h
      injection h with hb
      subst hb
      rw [show eraseKey ((a, b) :: rest) a = rest from by simp [eraseKey]]
      simp only [usedBytes, List.map_cons, List.sum_cons]
      omega
    · simp only [lookupKey, if_neg hap] at h
      simp only [eraseKey, if_neg hap, usedBytes, List.map_cons, List.sum_cons]
      have := ih h
      simp only [usedBytes] at this
      omega

theorem upsert_eq_append {α : Type} (l : List (String × α)) (k : String) (v : α)
    (h : lookupKey l k = none) : upsert l k v = l ++ [(k, v)] := by
  induction l with
  | nil => simp [upsert]
  | cons e rest ih =>
    rcases e with ⟨a, b⟩
    by_cases hak : a = k <;> simp_all [upsert, lookupKey]

/-! ### Space accountant (claim C6) -/

theorem calculate_space_loop_avail (disk : List (String × Nat)) :
    ∀ (store : List (String × String)) (a : Int),
      (calculate_space_loop disk store a).1 =
        a + ((store.map (fun e => (lookupKey disk e.2).getD 0)).sum : Nat) := by
  intro store
  induction store with
  | nil => intro a; simp [calculate_space_loop]
  | cons e rest ih =>
    intro a
    rcases e with ⟨tid, path⟩
    cases h : lookupKey disk path with
    | none => simp [calculate_space_loop, h, ih]
    | some sz =>
      simp only [calculate_space_loop, h, ih, List.map_cons, List.sum_cons,
        Option.getD_some]
      push_cast
      ring

theorem calculate_space_loop_store (disk : List (String × Nat)) :
    ∀ (store : List (String × String)) (a : Int),
      (calculate_space_loop disk store a).2 =
        store.filter (fun e => (lookupKey disk e.2).isSome) := by
  intro store
  induction store with
  | nil => intro a; simp [calculate_space_loop]
  | cons e rest ih =>
    intro a
    rcases e with ⟨tid, path⟩
    cases h : lookupKey disk path with
    | none => simp [calculate_space_loop, h, ih]
    | some sz => simp [calculate_space_loop, h, ih]

theorem sum_getD_filter_isSome (disk : List (String × Nat)) (store : List (String × String)) :
    ((store.filter (fun e => (lookupKey disk e.2).isSome)).map
        (fun e => (lookupKey disk e.2).getD 0)).sum =
      (store.map (fun e => (lookupKey disk e.2).getD 0)).sum := by
  induction store with
  | nil => simp
  | cons e rest ih =>
    cases h : lookupKey disk e.2 with
    | none => simp [h, ih]
    | some sz => simp [h, ih]

/-- Claim C6: for every state-store entry whose destination file no
longer exists, `calculate_space` drops the entry and writes the pruned
store back (second component), raising no error (the function is total);
the returned byte count is the free space after the 5 MB reserve plus the
total size of the files of the entries that do exist. -/
theorem calculate_space_correct (cap : Int) (disk : List (String × Nat))
    (store : List (String × String)) :
    (calculate_space cap disk store).2 =
      store.filter (fun e => (lookupKey disk e.2).isSome) ∧
    (calculate_space cap disk store).1 =
      space_available cap disk 5 +
        (((store.filter (fun e => (lookupKey disk e.2).isSome)).map
          (fun e => (lookupKey disk e.2).getD 0)).sum : Nat) := by
  constructor
  · exact calculate_space_loop_store disk store _
  · rw [calculate_space, calculate_space_loop_avail, sum_getD_filter_isSome]

/-! ### State-store getter (claim C10) -/

/-- Claim C10: when the persisted state file exists but its contents do
not parse as JSON (`contents = none`, which includes the zero-byte file
auto-created on first access), the `library_data` getter silently returns
the empty mapping instead of raising; well-formed contents are returned
as parsed. -/
theorem library_data_malformed :
    library_data none = [] ∧ ∀ d, library_data (some d) = d :=
  ⟨rfl, fun _ => rfl⟩

/-! ### Filter file loading (claim C9) -/

/-- Claim C9 counterexample: loading the filter rules from a missing file
raises the builtin `FileNotFoundError` escaping from `open`, which is not
the configuration error (`InvalidConfigError`) the claim promises. -/
theorem load_from_file_missing_not_config :
    load_from_file filtersNone FilterFileRead.missing =
      Except.error LoadFilterError.fileNotFoundError ∧
    LoadFilterError.fileNotFoundError ≠ LoadFilterError.invalidConfigError :=
  ⟨rfl, by decide⟩

/-- Claim C9 (amended): malformed content is reported as the
configuration error; a missing file raises the underlying
file-not-found error instead (still an error to the caller — in neither
case are default filter values substituted); in a well-formed file each
absent field is treated as the empty set, and the resolved track-id set
is untouched. -/
theorem load_from_file_correct :
    (∀ f, load_from_file f FilterFileRead.malformed =
        Except.error LoadFilterError.invalidConfigError) ∧
    (∀ f, load_from_file f FilterFileRead.missing =
        Except.error LoadFilterError.fileNotFoundError) ∧
    (∀ f, load_from_file f (FilterFileRead.parsed ⟨none, none, none, none⟩) =
        Except.ok { f with albums := [], artists := [], genres := [], playlists := [] }) ∧
    (∀ f d, load_from_file f (FilterFileRead.parsed d) =
        Except.ok { f with
                    albums := d.albums.getD []
                    artists := d.artists.getD []
                    genres := d.genres.getD []
                    playlists := d.playlists.getD [] }) :=
  ⟨fun _ => rfl, fun _ => rfl, fun _ => rfl, fun _ _ => rfl⟩

/-! ### Destination directory policy (claim C8) -/

theorem target_directory_loop_le (maxCount : Nat) (folders : List (Option Nat)) :
    ∀ (fuel i : Nat), i ≤ target_directory_loop maxCount folders fuel i := by
  intro fuel
  induction fuel with
  | zero => intro i; simp [target_directory_loop]
  | succ fuel ih =>
    intro i
    simp only [target_directory_loop]
    cases folders.getD i none with
    | none => exact le_refl i
    | some c =>
      by_cases hc : c < maxCount
      · simp [hc]
      · simp only [if_neg hc]
        exact le_trans (Nat.le_succ i) (ih (i + 1))

theorem target_directory_loop_ok (maxCount : Nat) (folders : List (Option Nat)) :
    ∀ (fuel i : Nat), folders.length ≤ i + fuel →
      folders.getD (target_directory_loop maxCount folders fuel i) none = none ∨
      ∃ c, folders.getD (target_directory_loop maxCount folders fuel i) none = some c ∧
        c < maxCount := by
  intro fuel
  induction fuel with
  | zero =>
    intro i hlen
    left
    simp only [target_directory_loop]
    exact List.getD_eq_default _ _ (by omega)
  | succ fuel ih =>
    intro i hlen
    cases h : folders.getD i none with
    | none =>
      left
      simp only [target_directory_loop, h]
    | some c =>
      by_cases hc : c < maxCount
      · right
        refine ⟨c, ?_, hc⟩
        simp only [target_directory_loop, h, if_pos hc]
      · simp only [target_directory_loop, h, if_neg hc]
        exact ih (i + 1) (by omega)

/-- Claim C8: with subfoldering enabled the subfolder index never
decreases (`target_directory` returns an index at least the current
one, and that index becomes the new `self._subfolder`); the chosen index
is always either a folder that does not yet exist (freshly created) or an
existing folder whose visible-file count is below the configured maximum;
and with a maximum of 2 files per folder, three tracks copied in sequence
land in folders 0, 0 and 1. -/
theorem target_directory_correct :
    (∀ (maxCount : Nat) (folders : List (Option Nat)) (i : Nat),
        i ≤ target_directory maxCount folders i) ∧
    (∀ (maxCount : Nat) (folders : List (Option Nat)) (i : Nat),
        folders.getD (target_directory maxCount folders i) none = none ∨
        ∃ c, folders.getD (target_directory maxCount folders i) none = some c ∧
          c < maxCount) ∧
    ((copy_into 2 ([], 0)).2 = 0 ∧
      (copy_into 2 (copy_into 2 ([], 0))).2 = 0 ∧
      (copy_into 2 (copy_into 2 (copy_into 2 ([], 0)))).2 = 1) := by
  refine ⟨?_, ?_, by decide⟩
  · intro maxCount folders i
    exact target_directory_loop_le maxCount folders (folders.length + 1) i
  · intro maxCount folders i
    exact target_directory_loop_ok maxCount folders (folders.length + 1) i (by omega)

/-! ### Copy executor failure handling (claim C2) -/

/-- Claim C2 — the code contradicts it (code bug).  With both tracks of
the plan copied in catalog order and the copy of `t2` failing after 100
written bytes: even with an error callback registered the partially
written file `f2` of the failed track is left on disk while the
previously completed file `f1` of track `t1` is deleted (the `except`
handler removes `destination`, which still holds the previous track's
path).  Without an error callback the `continue` inside
`if error_callback:` is skipped past, and the state store gains an entry
for the failed track `t2` (pointing at the previous track's path).  When
the very first copy fails, `destination` is unbound and the handler's
`os.remove(destination)` raises `UnboundLocalError`, which propagates out
of the pipeline. -/
theorem copy_tracks_failure_bug :
    (copy_tracks outcomeFailSecond true true true signalNever {"t1", "t2"}
        [trackP1, trackP2] [] []).disk = [("f2", 100)] ∧
    (copy_tracks outcomeFailSecond true true true signalNever {"t1", "t2"}
        [trackP1, trackP2] [] []).store = [("t1", "f1")] ∧
    (copy_tracks outcomeFailSecond true false true signalNever {"t1", "t2"}
        [trackP1, trackP2] [] []).store = [("t1", "f1"), ("t2", "f1")] ∧
    (copy_tracks outcomeAllPartial true true true signalNever {"t1"}
        [trackP1] [] []).raised = some "UnboundLocalError" := by
  refine ⟨?_, ?_, ?_, ?_⟩ <;> rfl

/-! ### Cooperative cancellation (claim C7) -/

/-- Claim C7 — the code contradicts it (code bug).  `copy_tracks` rebinds
a falsy `end_signal` to the constant `False` before the loop
(`if not end_signal: end_signal = False`), so a flag that is falsy at
entry and truthy from the very next observation onwards never stops the
loop: both plan tracks are still copied.  Conversely a flag truthy at
entry stops the loop before any track is processed.  Mid-run cooperative
cancellation is therefore impossible, contrary to the claim that the
loop stops as soon as the flag is observed true. -/
theorem copy_tracks_cancellation_bug :
    signalAfterEntry 0 = false ∧ signalAfterEntry 1 = true ∧ signalAfterEntry 2 = true ∧
    (copy_tracks outcomeAllSuccess false false false signalAfterEntry {"t1", "t2"}
        [trackP1, trackP2] [] []).store = [("t1", "f1"), ("t2", "f2")] ∧
    (copy_tracks outcomeAllSuccess false false false signalAlways {"t1"}
        [trackP1] [] []).store = [] := by
  refine ⟨rfl, rfl, rfl, ?_, ?_⟩ <;> rfl

/-! ### Reconciler (claim C3) -/

theorem clean_plan_eq :
    ∀ (store : List (String × String)) (plan : Finset String) (disk : List (String × Nat)),
      (clean_sync_list store plan disk).2.1 = plan \ (store.map Prod.fst).toFinset := by
  intro store
  induction store with
  | nil => intro plan disk; simp [clean_sync_list]
  | cons e rest ih =>
    intro plan disk
    rcases e with ⟨tid, path⟩
    by_cases hp : tid ∈ plan
    · simp only [clean_sync_list, if_pos hp, ih]
      ext x
      simp only [Finset.mem_sdiff, Finset.mem_erase, List.map_cons, List.toFinset_cons,
        Finset.mem_insert, List.mem_toFinset]
      tauto
    · simp only [clean_sync_list, if_neg hp]
      cases h : lookupKey disk path with
      | some sz =>
        simp only [ih]
        ext x
        simp only [Finset.mem_sdiff, List.map_cons, List.toFinset_cons, Finset.mem_insert,
          List.mem_toFinset]
        constructor
        · rintro ⟨hx, hk⟩
          exact ⟨hx, fun hor => hk (hor.resolve_left (fun hxe => hp (hxe ▸ hx)))⟩
        · rintro ⟨hx, hk⟩
          exact ⟨hx, fun hm => hk (Or.inr hm)⟩
      | none =>
        simp only [ih]
        ext x
        simp only [Finset.mem_sdiff, List.map_cons, List.toFinset_cons, Finset.mem_insert,
          List.mem_toFinset]
        constructor
        · rintro ⟨hx, hk⟩
          exact ⟨hx, fun hor => hk (hor.resolve_left (fun hxe => hp (hxe ▸ hx)))⟩
        · rintro ⟨hx, hk⟩
          exact ⟨hx, fun hm => hk (Or.inr hm)⟩

theorem clean_store_sub :
    ∀ (store : List (String × String)) (plan : Finset String) (disk : List (String × Nat))
      (e : String × String), e ∈ (clean_sync_list store plan disk).1 → e ∈ store := by
  intro store
  induction store with
  | nil => intro plan disk e he; simp [clean_sync_list] at he
  | cons f rest ih =>
    intro plan disk e he
    rcases f with ⟨tid, path⟩
    by_cases hp : tid ∈ plan
    · simp only [clean_sync_list, if_pos hp, List.mem_cons] at he
      rcases he with he | he
      · exact he ▸ List.mem_cons_self _ _
      · exact List.mem_cons_of_mem _ (ih _ _ _ he)
    · simp only [clean_sync_list, if_neg hp] at he
      cases h : lookupKey disk path with
      | some sz =>
        rw [h] at he
        exact List.mem_cons_of_mem _ (ih _ _ _ he)
      | none =>
        rw [h] at he
        simp only [List.mem_cons] at he
        rcases he with he | he
        · exact he ▸ List.mem_cons_self _ _
        · exact List.mem_cons_of_mem _ (ih _ _ _ he)

theorem clean_keep_in_plan :
    ∀ (store : List (String × String)) (plan : Finset String) (disk : List (String × Nat)),
      (store.map Prod.fst).Nodup →
      ∀ e ∈ store, e.1 ∈ plan → e ∈ (clean_sync_list store plan disk).1 := by
  intro store
  induction store with
  | nil => intro plan disk _ e he; simp at he
  | cons f rest ih =>
    intro plan disk hk e he hep
    rcases f with ⟨tid, path⟩
    simp only [List.map_cons, List.nodup_cons] at hk
    rcases List.mem_cons.mp he with he | he
    · subst he
      simp only [clean_sync_list, if_pos hep]
      exact List.mem_cons_self _ _
    · have htid : e.1 ≠ tid := fun hx => hk.1 (hx ▸ List.mem_map_of_mem Prod.fst he)
      by_cases hp : tid ∈ plan
      · simp only [clean_sync_list, if_pos hp]
        exact List.mem_cons_of_mem _
          (ih (plan.erase tid) disk hk.2 e he (Finset.mem_erase.mpr ⟨htid, hep⟩))
      · simp only [clean_sync_list, if_neg hp]
        cases h : lookupKey disk path with
        | some sz => exact ih plan (eraseKey disk path) hk.2 e he hep
        | none => exact List.mem_cons_of_mem _ (ih plan disk hk.2 e he hep)

theorem lookupKey_clean_disk_none :
    ∀ (store : List (String × String)) (plan : Finset String) (disk : List (String × Nat))
      (p : String), lookupKey disk p = none →
      lookupKey (clean_sync_list store plan disk).2.2 p = none := by
  intro store
  induction store with
  | nil => intro plan disk p h; simpa [clean_sync_list] using h
  | cons f rest ih =>
    intro plan disk p h
    rcases f with ⟨tid, path⟩
    by_cases hp : tid ∈ plan
    · simp only [clean_sync_list, if_pos hp]
      exact ih _ _ _ h
    · simp only [clean_sync_list, if_neg hp]
      cases hl : lookupKey disk path with
      | some sz => exact ih _ _ _ (lookupKey_eraseKey_none disk path p h)
      | none => exact ih _ _ _ h

theorem clean_removed :
    ∀ (store : List (String × String)) (plan : Finset String) (disk : List (String × Nat)),
      (store.map Prod.fst).Nodup → (store.map Prod.snd).Nodup →
      (disk.map Prod.fst).Nodup →
      ∀ e ∈ store, e.1 ∉ plan → (lookupKey disk e.2).isSome →
        e.1 ∉ (clean_sync_list store plan disk).1.map Prod.fst ∧
        lookupKey (clean_sync_list store plan disk).2.2 e.2 = none := by
  intro store
  induction store with
  | nil => intro plan disk _ _ _ e he; simp at he
  | cons f rest ih =>
    intro plan disk hk hv hd e he hep hsome
    rcases f with ⟨tid, path⟩
    simp only [List.map_cons, List.nodup_cons] at hk hv
    rcases List.mem_cons.mp he with he | he
    · subst he
      simp only [clean_sync_list, if_neg hep]
      rcases Option.isSome_iff_exists.mp hsome with ⟨sz, hsz⟩
      rw [hsz]
      constructor
      · intro hmem
        rcases List.mem_map.mp hmem with ⟨e2, he2, hfst⟩
        have := clean_store_sub rest plan (eraseKey disk path) e2 he2
        exact hk.1 (hfst ▸ List.mem_map_of_mem Prod.fst this)
      · exact lookupKey_clean_disk_none rest plan _ path
          (lookupKey_eraseKey_self disk path hd)
    · have htid : e.1 ≠ tid := fun hx => hk.1 (hx ▸ List.mem_map_of_mem Prod.fst he)
      have hpath : e.2 ≠ path := fun hx => hv.1 (hx ▸ List.mem_map_of_mem Prod.snd he)
      by_cases hp : tid ∈ plan
      · simp only [clean_sync_list, if_pos hp]
        have := ih (plan.erase tid) disk hk.2 hv.2 hd e he
          (fun hx => hep (Finset.mem_of_mem_erase hx)) hsome
        refine ⟨?_, this.2⟩
        intro hmem
        simp only [List.map_cons, List.mem_cons] at hmem
        rcases hmem with hmem | hmem
        · exact htid hmem
        · exact this.1 hmem
      · simp only [clean_sync_list, if_neg hp]
        cases hl : lookupKey disk path with
        | some sz =>
          have her : ((eraseKey disk path).map Prod.fst).Nodup :=
            (eraseKey_keys_sublist disk path).nodup hd
          have hsome2 : (lookupKey (eraseKey disk path) e.2).isSome := by
            rw [lookupKey_eraseKey_ne disk path e.2 hpath]
            exact hsome
          exact ih plan (eraseKey disk path) hk.2 hv.2 her e he hep hsome2
        | none =>
          have := ih plan disk hk.2 hv.2 hd e he hep hsome
          refine ⟨?_, this.2⟩
          intro hmem
          simp only [List.map_cons, List.mem_cons] at hmem
          rcases hmem with hmem | hmem
          · exact htid hmem
          · exact this.1 hmem

theorem clean_kept_missing :
    ∀ (store : List (String × String)) (plan : Finset String) (disk : List (String × Nat)),
      (store.map Prod.fst).Nodup → (store.map Prod.snd).Nodup →
      ∀ e ∈ store, e.1 ∉ plan → lookupKey disk e.2 = none →
        e ∈ (clean_sync_list store plan disk).1 := by
  intro store
  induction store with
  | nil => intro plan disk _ _ e he; simp at he
  | cons f rest ih =>
    intro plan disk hk hv e he hep hnone
    rcases f with ⟨tid, path⟩
    simp only [List.map_cons, List.nodup_cons] at hk hv
    rcases List.mem_cons.mp he with he | he
    · subst he
      simp only [clean_sync_list, if_neg hep, hnone]
      exact List.mem_cons_self _ _
    · have hpath : e.2 ≠ path := fun hx => hv.1 (hx ▸ List.mem_map_of_mem Prod.snd he)
      by_cases hp : tid ∈ plan
      · simp only [clean_sync_list, if_pos hp]
        exact List.mem_cons_of_mem _
          (ih (plan.erase tid) disk hk.2 hv.2 e he
            (fun hx => hep (Finset.mem_of_mem_erase hx)) hnone)
      · simp only [clean_sync_list, if_neg hp]
        cases hl : lookupKey disk path with
        | some sz =>
          have : lookupKey (eraseKey disk path) e.2 = none := by
            rw [lookupKey_eraseKey_ne disk path e.2 hpath]
            exact hnone
          exact ih plan (eraseKey disk path) hk.2 hv.2 e he hep this
        | none =>
          exact List.mem_cons_of_mem _ (ih plan disk hk.2 hv.2 e he hep hnone)

/-- Claim C3 counterexample: a store entry whose key is not in the plan
but whose destination file is already absent is *not* removed from the
store — the `FileNotFoundError` handler `continue`s past the `del` — so
the claim's unconditional "its entry is removed" is false. -/
theorem clean_sync_list_keeps_missing_entry :
    ("id1", "p") ∈ (clean_sync_list [("id1", "p")] ∅ []).1 ∧
    "id1" ∉ (∅ : Finset String) := by
  constructor
  · simp [clean_sync_list, lookupKey]
  · simp

/-- Claim C3 (amended): after `_clean_sync_list` over a store with
distinct keys and distinct paths against a destination tree with distinct
paths: the returned `tracks_to_copy` set is exactly the plan minus the
store's keys; every entry whose key is in the plan is kept with its path
unchanged; every entry whose key is not in the plan and whose file exists
is removed from the store and its file deleted from the tree; but an
entry whose key is not in the plan and whose file is already absent is
kept in the store (with an error notification), not removed. -/
theorem clean_sync_list_correct (store : List (String × String)) (plan : Finset String)
    (disk : List (String × Nat))
    (hk : (store.map Prod.fst).Nodup) (hv : (store.map Prod.snd).Nodup)
    (hd : (disk.map Prod.fst).Nodup) :
    (clean_sync_list store plan disk).2.1 = plan \ (store.map Prod.fst).toFinset ∧
    (∀ e ∈ store, e.1 ∈ plan → e ∈ (clean_sync_list store plan disk).1) ∧
    (∀ e ∈ store, e.1 ∉ plan → (lookupKey disk e.2).isSome →
        e.1 ∉ (clean_sync_list store plan disk).1.map Prod.fst ∧
        lookupKey (clean_sync_list store plan disk).2.2 e.2 = none) ∧
    (∀ e ∈ store, e.1 ∉ plan → lookupKey disk e.2 = none →
        e ∈ (clean_sync_list store plan disk).1) :=
  ⟨clean_plan_eq store plan disk,
   clean_keep_in_plan store plan disk hk,
   clean_removed store plan disk hk hv hd,
   clean_kept_missing store plan disk hk hv⟩

/-- Claim C3 witness: the amended reconciliation statement applied to a
concrete store, plan and destination tree. -/
theorem clean_sync_list_correct_witness :
    ((([("a", "p"), ("b", "q")] : List (String × String)).map Prod.fst).Nodup ∧
      (([("a", "p"), ("b", "q")] : List (String × String)).map Prod.snd).Nodup ∧
      (([("q", 5)] : List (String × Nat)).map Prod.fst).Nodup) ∧
    (clean_sync_list [("a", "p"), ("b", "q")] {"a"} [("q", 5)]).2.1 =
      {"a"} \ (([("a", "p"), ("b", "q")] : List (String × String)).map Prod.fst).toFinset := by
  refine ⟨⟨by decide, by decide, by decide⟩, ?_⟩
  exact (clean_sync_list_correct [("a", "p"), ("b", "q")] {"a"} [("q", 5)]
    (by decide) (by decide) (by decide)).1

/-! ### Planner lemmas (claims C1, C4) -/

theorem admittedSizes_nil : admittedSizes [] = 0 := rfl

theorem admittedSizes_cons (t : Track) (l : List Track) :
    admittedSizes (t :: l) = (t.size : Int) + admittedSizes l := by
  simp [admittedSizes]

theorem admittedSizes_append (l₁ l₂ : List Track) :
    admittedSizes (l₁ ++ l₂) = admittedSizes l₁ + admittedSizes l₂ := by
  simp [admittedSizes]

theorem main_pass_space (ex inc : HibikiConfigFilters) :
    ∀ (l : List Track) (space : Int) (plan : Finset String),
      (main_pass ex inc l space plan).1 =
        space - admittedSizes (main_admitted ex inc l space) := by
  intro l
  induction l with
  | nil => intro space plan; simp [main_pass, main_admitted, admittedSizes]
  | cons t rest ih =>
    intro space plan
    by_cases hex : ex.is_filtered t = true
    · simp [main_pass, main_admitted, hex, ih]
    · by_cases hinc : inc.is_filtered t = true
      · by_cases hsz : (t.size : Int) ≤ space
        · simp only [main_pass, main_admitted, if_pos hinc, if_pos hsz, if_neg hex, ih,
            admittedSizes_cons]
          ring
        · simp [main_pass, main_admitted, hex, hinc, hsz, ih]
      · simp [main_pass, main_admitted, hex, hinc, ih]

theorem main_pass_mem (ex inc : HibikiConfigFilters) :
    ∀ (l : List Track) (space : Int) (plan : Finset String) (x : String),
      x ∈ (main_pass ex inc l space plan).2 ↔
        x ∈ plan ∨ x ∈ idsOf (main_admitted ex inc l space) := by
  intro l
  induction l with
  | nil => intro space plan x; simp [main_pass, main_admitted, idsOf]
  | cons t rest ih =>
    intro space plan x
    by_cases hex : ex.is_filtered t = true
    · simp [main_pass, main_admitted, hex, ih]
    · by_cases hinc : inc.is_filtered t = true
      · by_cases hsz : (t.size : Int) ≤ space
        · simp only [main_pass, main_admitted, if_pos hinc, if_pos hsz, if_neg hex, ih,
            idsOf, List.map_cons, List.toFinset_cons, Finset.mem_insert, List.mem_toFinset]
          tauto
        · simp [main_pass, main_admitted, hex, hinc, hsz, ih]
      · simp [main_pass, main_admitted, hex, hinc, ih]

theorem main_pass_plan_eq (ex inc : HibikiConfigFilters) (l : List Track) (space : Int)
    (plan : Finset String) :
    (main_pass ex inc l space plan).2 = plan ∪ idsOf (main_admitted ex inc l space) := by
  ext x
  simp [main_pass_mem, Finset.mem_union]

theorem main_admitted_sub (ex inc : HibikiConfigFilters) :
    ∀ (l : List Track) (space : Int) (t : Track),
      t ∈ main_admitted ex inc l space → t ∈ l ∧ ex.is_filtered t = false := by
  intro l
  induction l with
  | nil => intro space t ht; simp [main_admitted] at ht
  | cons t0 rest ih =>
    intro space t ht
    by_cases hex : ex.is_filtered t0 = true
    · simp only [main_admitted, if_pos hex] at ht
      rcases ih space t ht with ⟨h1, h2⟩
      exact ⟨List.mem_cons_of_mem _ h1, h2⟩
    · by_cases hinc : inc.is_filtered t0 = true
      · by_cases hsz : (t.size : Int) ≤ space
        · simp only [main_admitted, if_neg hex, if_pos hinc] at ht
          by_cases hsz0 : (t0.size : Int) ≤ space
          · rw [if_pos hsz0] at ht
            rcases List.mem_cons.mp ht with rfl | ht
            · exact ⟨List.mem_cons_self _ _, Bool.not_eq_true _ ▸ (by simpa using hex)⟩
            · rcases ih _ t ht with ⟨h1, h2⟩
              exact ⟨List.mem_cons_of_mem _ h1, h2⟩
          · rw [if_neg hsz0] at ht
            rcases ih space t ht with ⟨h1, h2⟩
            exact ⟨List.mem_cons_of_mem _ h1, h2⟩
        · simp only [main_admitted, if_neg hex, if_pos hinc] at ht
          by_cases hsz0 : (t0.size : Int) ≤ space
          · rw [if_pos hsz0] at ht
            rcases List.mem_cons.mp ht with rfl | ht
            · exact ⟨List.mem_cons_self _ _, Bool.not_eq_true _ ▸ (by simpa using hex)⟩
            · rcases ih _ t ht with ⟨h1, h2⟩
              exact ⟨List.mem_cons_of_mem _ h1, h2⟩
          · rw [if_neg hsz0] at ht
            rcases ih space t ht with ⟨h1, h2⟩
            exact ⟨List.mem_cons_of_mem _ h1, h2⟩
      · simp only [main_admitted, if_neg hex, if_neg hinc] at ht
        rcases ih space t ht with ⟨h1, h2⟩
        exact ⟨List.mem_cons_of_mem _ h1, h2⟩

theorem fill_pass_space (ex : HibikiConfigFilters) :
    ∀ (l : List Track) (space : Int) (plan : Finset String),
      (fill_pass ex l space plan).1 =
        space - admittedSizes (fill_admitted ex l space plan) := by
  intro l
  induction l with
  | nil => intro space plan; simp [fill_pass, fill_admitted, admittedSizes]
  | cons t rest ih =>
    intro space plan
    by_cases hex : ex.is_filtered t = true
    · simp [fill_pass, fill_admitted, hex, ih]
    · by_cases hmem : t.persistent_id ∈ plan
      · simp [fill_pass, fill_admitted, hex, hmem, ih]
      · by_cases hsz : (t.size : Int) ≤ space
        · simp only [fill_pass, fill_admitted, if_neg hex, if_neg hmem, if_pos hsz, ih,
            admittedSizes_cons]
          ring
        · simp [fill_pass, fill_admitted, hex, hmem, hsz, ih]

theorem fill_pass_mem_bound (ex : HibikiConfigFilters) :
    ∀ (l : List Track) (space : Int) (plan : Finset String) (x : String),
      x ∈ (fill_pass ex l space plan).2 →
        x ∈ plan ∨ ∃ t, t ∈ l ∧ t.persistent_id = x ∧ ex.is_filtered t = false := by
  intro l
  induction l with
  | nil => intro space plan x hx; left; simpa [fill_pass] using hx
  | cons t rest ih =>
    intro space plan x hx
    by_cases hex : ex.is_filtered t = true
    · simp only [fill_pass, if_pos hex] at hx
      rcases ih space plan x hx with h | ⟨u, hu1, hu2, hu3⟩
      · exact Or.inl h
      · exact Or.inr ⟨u, List.mem_cons_of_mem _ hu1, hu2, hu3⟩
    · by_cases hmem : t.persistent_id ∈ plan
      · simp only [fill_pass, if_neg hex, if_pos hmem] at hx
        rcases ih space plan x hx with h | ⟨u, hu1, hu2, hu3⟩
        · exact Or.inl h
        · exact Or.inr ⟨u, List.mem_cons_of_mem _ hu1, hu2, hu3⟩
      · by_cases hsz : (t.size : Int) ≤ space
        · simp only [fill_pass, if_neg hex, if_neg hmem, if_pos hsz] at hx
          rcases ih _ _ x hx with h | ⟨u, hu1, hu2, hu3⟩
          · rcases Finset.mem_insert.mp h with h | h
            · exact Or.inr ⟨t, List.mem_cons_self _ _, h.symm,
                Bool.not_eq_true _ ▸ (by simpa using hex)⟩
            · exact Or.inl h
          · exact Or.inr ⟨u, List.mem_cons_of_mem _ hu1, hu2, hu3⟩
        · simp only [fill_pass, if_neg hex, if_neg hmem, if_neg hsz] at hx
          rcases ih space plan x hx with h | ⟨u, hu1, hu2, hu3⟩
          · exact Or.inl h
          · exact Or.inr ⟨u, List.mem_cons_of_mem _ hu1, hu2, hu3⟩

theorem main_guard (ex inc : HibikiConfigFilters) :
    ∀ (l : List Track) (space : Int) (pre : List Track) (t : Track) (post : List Track),
      main_admitted ex inc l space = pre ++ t :: post →
      (t.size : Int) ≤ space - admittedSizes pre := by
  intro l
  induction l with
  | nil =>
    intro space pre t post h
    simp only [main_admitted] at h
    exact absurd h (by simp)
  | cons t0 rest ih =>
    intro space pre t post h
    by_cases hex : ex.is_filtered t0 = true
    · rw [show main_admitted ex inc (t0 :: rest) space = main_admitted ex inc rest space from
        by simp [main_admitted, hex]] at h
      exact ih space pre t post h
    · by_cases hinc : inc.is_filtered t0 = true
      · by_cases hsz : (t0.size : Int) ≤ space
        · rw [show main_admitted ex inc (t0 :: rest) space =
              t0 :: main_admitted ex inc rest (space - t0.size) from
            by simp [main_admitted, hex, hinc, hsz]] at h
          cases pre with
          | nil =>
            simp only [List.nil_append, List.cons.injEq] at h
            rw [admittedSizes_nil, h.1.symm]
            simpa using hsz
          | cons p pre2 =>
            simp only [List.cons_append, List.cons.injEq] at h
            have := ih (space - t0.size) pre2 t post h.2
            rw [admittedSizes_cons, h.1.symm]
            linarith
        · rw [show main_admitted ex inc (t0 :: rest) space = main_admitted ex inc rest space from
            by simp [main_admitted, hex, hinc, hsz]] at h
          exact ih space pre t post h
      · rw [show main_admitted ex inc (t0 :: rest) space = main_admitted ex inc rest space from
          by simp [main_admitted, hex, hinc]] at h
        exact ih space pre t post h

theorem fill_guard (ex : HibikiConfigFilters) :
    ∀ (l : List Track) (space : Int) (plan : Finset String) (pre : List Track) (t : Track)
      (post : List Track),
      fill_admitted ex l space plan = pre ++ t :: post →
      (t.size : Int) ≤ space - admittedSizes pre := by
  intro l
  induction l with
  | nil =>
    intro space plan pre t post h
    simp only [fill_admitted] at h
    exact absurd h (by simp)
  | cons t0 rest ih =>
    intro space plan pre t post h
    by_cases hex : ex.is_filtered t0 = true
    · rw [show fill_admitted ex (t0 :: rest) space plan = fill_admitted ex rest space plan from
        by simp [fill_admitted, hex]] at h
      exact ih space plan pre t post h
    · by_cases hmem : t0.persistent_id ∈ plan
      · rw [show fill_admitted ex (t0 :: rest) space plan = fill_admitted ex rest space plan from
          by simp [fill_admitted, hex, hmem]] at h
        exact ih space plan pre t post h
      · by_cases hsz : (t0.size : Int) ≤ space
        · rw [show fill_admitted ex (t0 :: rest) space plan =
              t0 :: fill_admitted ex rest (space - t0.size) (insert t0.persistent_id plan) from
            by simp [fill_admitted, hex, hmem, hsz]] at h
          cases pre with
          | nil =>
            simp only [List.nil_append, List.cons.injEq] at h
            rw [admittedSizes_nil, h.1.symm]
            simpa using hsz
          | cons p pre2 =>
            simp only [List.cons_append, List.cons.injEq] at h
            have := ih (space - t0.size) (insert t0.persistent_id plan) pre2 t post h.2
            rw [admittedSizes_cons, h.1.symm]
            linarith
        · rw [show fill_admitted ex (t0 :: rest) space plan = fill_admitted ex rest space plan from
            by simp [fill_admitted, hex, hmem, hsz]] at h
          exact ih space plan pre t post h

theorem main_pass_nonneg (ex inc : HibikiConfigFilters) :
    ∀ (l : List Track) (space : Int) (plan : Finset String),
      0 ≤ space → 0 ≤ (main_pass ex inc l space plan).1 := by
  intro l
  induction l with
  | nil => intro space plan h; simpa [main_pass] using h
  | cons t rest ih =>
    intro space plan h
    by_cases hex : ex.is_filtered t = true
    · simp only [main_pass, if_pos hex]
      exact ih space plan h
    · by_cases hinc : inc.is_filtered t = true
      · by_cases hsz : (t.size : Int) ≤ space
        · simp only [main_pass, if_neg hex, if_pos hinc, if_pos hsz]
          exact ih _ _ (by linarith)
        · simp only [main_pass, if_neg hex, if_pos hinc, if_neg hsz]
          exact ih space plan h
      · simp only [main_pass, if_neg hex, if_neg hinc]
        exact ih space plan h

theorem fill_pass_nonneg (ex : HibikiConfigFilters) :
    ∀ (l : List Track) (space : Int) (plan : Finset String),
      0 ≤ space → 0 ≤ (fill_pass ex l space plan).1 := by
  intro l
  induction l with
  | nil => intro space plan h; simpa [fill_pass] using h
  | cons t rest ih =>
    intro space plan h
    by_cases hex : ex.is_filtered t = true
    · simp only [fill_pass, if_pos hex]
      exact ih space plan h
    · by_cases hmem : t.persistent_id ∈ plan
      · simp only [fill_pass, if_neg hex, if_pos hmem]
        exact ih space plan h
      · by_cases hsz : (t.size : Int) ≤ space
        · simp only [fill_pass, if_neg hex, if_neg hmem, if_pos hsz]
          exact ih _ _ (by linarith)
        · simp only [fill_pass, if_neg hex, if_neg hmem, if_neg hsz]
          exact ih space plan h

theorem generate_plan_false (ex inc : HibikiConfigFilters) (catalog fillOrder : List Track)
    (space : Int) (plan : Finset String) :
    generate_plan ex inc false catalog fillOrder space plan =
      main_pass ex inc catalog space plan := by
  simp [generate_plan]

theorem generate_plan_true (ex inc : HibikiConfigFilters) (catalog fillOrder : List Track)
    (space : Int) (plan : Finset String) :
    generate_plan ex inc true catalog fillOrder space plan =
      fill_pass ex fillOrder (main_pass ex inc catalog space plan).1
        (main_pass ex inc catalog space plan).2 := by
  simp [generate_plan]

theorem plan_admitted_false (ex inc : HibikiConfigFilters) (catalog fillOrder : List Track)
    (space : Int) (plan : Finset String) :
    plan_admitted ex inc false catalog fillOrder space plan =
      main_admitted ex inc catalog space := by
  simp [plan_admitted]

theorem plan_admitted_true (ex inc : HibikiConfigFilters) (catalog fillOrder : List Track)
    (space : Int) (plan : Finset String) :
    plan_admitted ex inc true catalog fillOrder space plan =
      main_admitted ex inc catalog space ++
        fill_admitted ex fillOrder (main_pass ex inc catalog space plan).1
          (main_pass ex inc catalog space plan).2 := by
  simp [plan_admitted]

/-- Claim C1 counterexample: with a negative effective budget (reachable
when the destination's free space is below the 5 MB reserve and nothing
is reclaimable) the planner admits nothing, so the sum of admitted sizes
is 0, which exceeds the initial budget — the claim's unconditional bound
"sum of admitted sizes ≤ initial effective budget" fails for B = -1. -/
theorem planner_budget_counterexample :
    plan_admitted filtersNone filtersAlbumA false [trackA1] [] (-1) ∅ = [] ∧
    ¬ admittedSizes (plan_admitted filtersNone filtersAlbumA false [trackA1] [] (-1) ∅) ≤
        (-1 : Int) := by
  constructor
  · rfl
  · decide

/-- Claim C1 (amended): for every catalog, draw order and *non-negative*
initial effective budget B, the planner (both admission loops of
`generate_sync_list`) decrements the budget by exactly the admitted
track's size (the final budget is B minus the sum of admitted sizes),
admits a track only if the budget remaining at the moment of its
consideration is at least its size, and the sum of admitted sizes never
exceeds B (for a negative B the admit-only-if-affordable and exact
decrement parts still hold, but the sum bound fails as 0 > B).  In
particular, with budget 1000 and included tracks of sizes 600 then 500 in
catalog order, only the first is admitted and the remaining budget is
400. -/
theorem planner_budget (ex inc : HibikiConfigFilters) (randomFill : Bool)
    (catalog fillOrder : List Track) (B : Int) (hB : 0 ≤ B) :
    ((generate_plan ex inc randomFill catalog fillOrder B ∅).1 =
        B - admittedSizes (plan_admitted ex inc randomFill catalog fillOrder B ∅)) ∧
    (∀ pre t post,
        plan_admitted ex inc randomFill catalog fillOrder B ∅ = pre ++ t :: post →
        (t.size : Int) ≤ B - admittedSizes pre) ∧
    admittedSizes (plan_admitted ex inc randomFill catalog fillOrder B ∅) ≤ B ∧
    generate_plan filtersNone filtersAlbumA false [trackA1, trackA2] [] 1000 ∅ =
      (400, {"t1"}) := by
  have hspace : (generate_plan ex inc randomFill catalog fillOrder B ∅).1 =
      B - admittedSizes (plan_admitted ex inc randomFill catalog fillOrder B ∅) := by
    cases randomFill with
    | false =>
      rw [generate_plan_false, plan_admitted_false]
      exact main_pass_space ex inc catalog B ∅
    | true =>
      rw [generate_plan_true, plan_admitted_true, admittedSizes_append,
        fill_pass_space, main_pass_space]
      ring
  refine ⟨hspace, ?_, ?_, by decide⟩
  · intro pre t post h
    cases randomFill with
    | false =>
      rw [plan_admitted_false] at h
      exact main_guard ex inc catalog B pre t post h
    | true =>
      rw [plan_admitted_true] at h
      rcases List.append_eq_append_iff.mp h with ⟨a2, hpre, hF⟩ | ⟨c2, hA, hd⟩
      · have := fill_guard ex fillOrder (main_pass ex inc catalog B ∅).1
          (main_pass ex inc catalog B ∅).2 a2 t post hF
        rw [main_pass_space] at this
        rw [hpre, admittedSizes_append]
        linarith
      · cases c2 with
        | nil =>
          simp only [List.nil_append] at hd
          have := fill_guard ex fillOrder (main_pass ex inc catalog B ∅).1
            (main_pass ex inc catalog B ∅).2 [] t post hd.symm
          rw [main_pass_space, admittedSizes_nil] at this
          rw [show pre = main_admitted ex inc catalog B from by simpa using hA.symm]
          linarith
        | cons u c3 =>
          simp only [List.cons_append, List.cons.injEq] at hd
          rcases hd with ⟨rfl, hpost⟩
          exact main_guard ex inc catalog B pre t c3 hA
  · have hfinal : 0 ≤ (generate_plan ex inc randomFill catalog fillOrder B ∅).1 := by
      cases randomFill with
      | false =>
        rw [generate_plan_false]
        exact main_pass_nonneg ex inc catalog B ∅ hB
      | true =>
        rw [generate_plan_true]
        exact fill_pass_nonneg ex fillOrder _ _ (main_pass_nonneg ex inc catalog B ∅ hB)
    rw [hspace] at hfinal
    linarith

/-- Claim C1 witness: the amended budget statement applied at budget
1000 with the two scenario tracks. -/
theorem planner_budget_witness :
    (0 : Int) ≤ 1000 ∧
    (generate_plan filtersNone filtersAlbumA false [trackA1, trackA2] [] 1000 ∅).1 =
      1000 - admittedSizes
        (plan_admitted filtersNone filtersAlbumA false [trackA1, trackA2] [] 1000 ∅) :=
  ⟨by decide,
   (planner_budget filtersNone filtersAlbumA false [trackA1, trackA2] [] 1000 (by decide)).1⟩

/-- Claim C4: exclusion strictly dominates inclusion.  If every catalog
track and every draw-order track carrying a given persistent id matches
the exclude filter set (in particular a track matching both the exclude
and the include rules), and the id is not already planned, then neither
the main admission pass nor the random-fill phase ever adds that id to
the plan. -/
theorem exclusion_dominates (ex inc : HibikiConfigFilters) (randomFill : Bool)
    (catalog fillOrder : List Track) (space : Int) (plan : Finset String) (x : String)
    (hcat : ∀ t ∈ catalog, t.persistent_id = x → ex.is_filtered t = true)
    (hfill : ∀ t ∈ fillOrder, t.persistent_id = x → ex.is_filtered t = true)
    (hplan : x ∉ plan) :
    x ∉ (generate_plan ex inc randomFill catalog fillOrder space plan).2 := by
  intro hmem
  have hmain : ∀ (sp : Int), x ∉ (main_pass ex inc catalog sp plan).2 := by
    intro sp hx
    rcases (main_pass_mem ex inc catalog sp plan x).mp hx with h | h
    · exact hplan h
    · rcases (by simpa [idsOf] using h :
          ∃ a ∈ main_admitted ex inc catalog sp, a.persistent_id = x) with ⟨t, ht, hid⟩
      rcases main_admitted_sub ex inc catalog sp t ht with ⟨hcatm, hexf⟩
      rw [hcat t hcatm hid] at hexf
      exact absurd hexf (by simp)
  cases randomFill with
  | false =>
    rw [generate_plan_false] at hmem
    exact hmain space hmem
  | true =>
    rw [generate_plan_true] at hmem
    rcases fill_pass_mem_bound ex fillOrder _ _ x hmem with h | ⟨t, ht, hid, hexf⟩
    · exact hmain _ h
    · rw [hfill t ht hid] at hexf
      exact absurd hexf (by simp)

/-- Claim C4 witness: a track matching both the exclude and the include
filter (album `A` in both) is kept out of the plan by both phases. -/
theorem exclusion_dominates_witness :
    HibikiConfigFilters.is_filtered filtersAlbumA trackA1 = true ∧
    "t1" ∉ (generate_plan filtersAlbumA filtersAlbumA true [trackA1] [trackA1] 1000 ∅).2 :=
  ⟨by decide,
   exclusion_dominates filtersAlbumA filtersAlbumA true [trackA1] [trackA1] 1000 ∅ "t1"
     (by intro t ht hx; rw [List.mem_singleton] at ht; subst ht; decide)
     (by intro t ht hx; rw [List.mem_singleton] at ht; subst ht; decide)
     (by simp)⟩

/-! ### Pipeline idempotence groundwork (claim C5) -/

theorem contains_append_idem (l P : List Nat) (x : Nat) :
    ((l ++ P) ++ P).contains x = (l ++ P).contains x := by
  rw [Bool.eq_iff_iff]
  constructor
  · intro h
    rcases List.mem_append.mp (List.elem_iff.mp h) with h | h
    · exact List.elem_iff.mpr h
    · exact List.elem_iff.mpr (List.mem_append.mpr (Or.inr h))
  · intro h
    exact List.elem_iff.mpr (List.mem_append.mpr (Or.inl (List.elem_iff.mp h)))

theorem is_filtered_resolve_twice (pls : List Playlist) (f : HibikiConfigFilters) (t : Track) :
    (get_playlist_tracks pls (get_playlist_tracks pls f)).is_filtered t =
      (get_playlist_tracks pls f).is_filtered t := by
  simp only [get_playlist_tracks, HibikiConfigFilters.is_filtered]
  rw [contains_append_idem]

theorem main_pass_congr (ex ex' inc inc' : HibikiConfigFilters)
    (hex : ∀ t, ex'.is_filtered t = ex.is_filtered t)
    (hinc : ∀ t, inc'.is_filtered t = inc.is_filtered t) :
    ∀ (l : List Track) (space : Int) (plan : Finset String),
      main_pass ex' inc' l space plan = main_pass ex inc l space plan := by
  intro l
  induction l with
  | nil => intro space plan; simp [main_pass]
  | cons t rest ih =>
    intro space plan
    simp only [main_pass, hex t, hinc t]
    by_cases hx : ex.is_filtered t = true
    · simp [hx, ih]
    · by_cases hi : inc.is_filtered t = true
      · by_cases hsz : (t.size : Int) ≤ space <;> simp [hx, hi, hsz, ih]
      · simp [hx, hi, ih]

theorem main_admitted_congr (ex ex' inc inc' : HibikiConfigFilters)
    (hex : ∀ t, ex'.is_filtered t = ex.is_filtered t)
    (hinc : ∀ t, inc'.is_filtered t = inc.is_filtered t) :
    ∀ (l : List Track) (space : Int),
      main_admitted ex' inc' l space = main_admitted ex inc l space := by
  intro l
  induction l with
  | nil => intro space; simp [main_admitted]
  | cons t rest ih =>
    intro space
    simp only [main_admitted, hex t, hinc t]
    by_cases hx : ex.is_filtered t = true
    · simp [hx, ih]
    · by_cases hi : inc.is_filtered t = true
      · by_cases hsz : (t.size : Int) ≤ space <;> simp [hx, hi, hsz, ih]
      · simp [hx, hi, ih]

theorem copy_tracks_loop_success (hb he ha : Bool) (plan : Finset String) :
    ∀ (catalog : List Track) (n : Nat) (st : CopyState), st.raised = none →
      (copy_tracks_loop (fun _ => CopyOutcome.success) hb he ha (fun _ => false)
          plan catalog n st).store =
        (catalog.filter (fun t => decide (t.persistent_id ∈ plan))).foldl
          (fun acc t => upsert acc t.persistent_id t.filename) st.store ∧
      (copy_tracks_loop (fun _ => CopyOutcome.success) hb he ha (fun _ => false)
          plan catalog n st).disk =
        (catalog.filter (fun t => decide (t.persistent_id ∈ plan))).foldl
          (fun acc t => upsert acc t.filename t.size) st.disk ∧
      (copy_tracks_loop (fun _ => CopyOutcome.success) hb he ha (fun _ => false)
          plan catalog n st).raised = none := by
  intro catalog
  induction catalog with
  | nil => intro n st hr; exact ⟨rfl, rfl, hr⟩
  | cons t rest ih =>
    intro n st hr
    by_cases hmem : t.persistent_id ∈ plan
    · simp only [copy_tracks_loop, Bool.false_eq_true, if_false, if_pos hmem,
        List.filter_cons, decide_eq_true_eq, hmem, if_pos, List.foldl_cons]
      cases hb <;> cases ha <;>
        simpa using ih (n + 1) _ (by simp [hr])
    · simp only [copy_tracks_loop, Bool.false_eq_true, if_false, if_neg hmem,
        List.filter_cons, decide_eq_true_eq, hmem]
      simpa using ih (n + 1) st hr

theorem foldl_upsert_append {α : Type} (key : Track → String) (val : Track → α) :
    ∀ (l : List Track) (acc : List (String × α)),
      (∀ t ∈ l, lookupKey acc (key t) = none) → (l.map key).Nodup →
      l.foldl (fun a t => upsert a (key t) (val t)) acc =
        acc ++ l.map (fun t => (key t, val t)) := by
  intro l
  induction l with
  | nil => intro acc _ _; simp
  | cons t rest ih =>
    intro acc hfresh hnd
    simp only [List.map_cons, List.nodup_cons] at hnd
    simp only [List.foldl_cons, List.map_cons]
    rw [upsert_eq_append acc (key t) (val t) (hfresh t (List.mem_cons_self _ _))]
    rw [ih (acc ++ [(key t, val t)]) ?_ hnd.2]
    · simp
    · intro u hu
      rw [lookupKey_append_none _ _ _ (hfresh u (List.mem_cons_of_mem _ hu))]
      have : key u ≠ key t := fun hx => hnd.1 (hx ▸ List.mem_map_of_mem key hu)
      simp [lookupKey, Ne.symm this]

theorem lookupKey_map_pairs {α : Type} (key : Track → String) (val : Track → α) :
    ∀ (l : List Track), (l.map key).Nodup → ∀ t ∈ l,
      lookupKey (l.map (fun u => (key u, val u))) (key t) = some (val t) := by
  intro l
  induction l with
  | nil => intro _ t ht; simp at ht
  | cons u rest ih =>
    intro hnd t ht
    simp only [List.map_cons, List.nodup_cons] at hnd
    rcases List.mem_cons.mp ht with rfl | ht
    · simp [lookupKey]
    · have : key u ≠ key t := fun hx => hnd.1 (hx ▸ List.mem_map_of_mem key ht)
      simp only [List.map_cons, lookupKey, if_neg this]
      exact ih hnd.2 t ht

theorem sum_filter_partition {α : Type} (p : α → Bool) (f : α → Nat) :
    ∀ (l : List α),
      ((l.filter p).map f).sum + ((l.filter (fun e => !(p e))).map f).sum = (l.map f).sum := by
  intro l
  induction l with
  | nil => simp
  | cons e rest ih =>
    cases hp : p e <;> simp [List.filter_cons, hp] <;> omega

theorem clean_store_all_present :
    ∀ (store : List (String × String)) (plan : Finset String) (disk : List (String × Nat)),
      (store.map Prod.fst).Nodup → (store.map Prod.snd).Nodup →
      (∀ e ∈ store, (lookupKey disk e.2).isSome) →
      (clean_sync_list store plan disk).1 =
        store.filter (fun e => decide (e.1 ∈ plan)) := by
  intro store
  induction store with
  | nil => intro plan disk _ _ _; simp [clean_sync_list]
  | cons f rest ih =>
    intro plan disk hk hv hpres
    rcases f with ⟨tid, path⟩
    simp only [List.map_cons, List.nodup_cons] at hk hv
    by_cases hp : tid ∈ plan
    · simp only [clean_sync_list, if_pos hp, List.filter_cons, decide_eq_true_eq, hp,
        if_pos, List.cons.injEq]
      refine ⟨trivial, ?_⟩
      rw [ih (plan.erase tid) disk hk.2 hv.2
        (fun e he => hpres e (List.mem_cons_of_mem _ he))]
      apply List.filter_congr
      intro e he
      have : e.1 ≠ tid := fun hx => hk.1 (hx ▸ List.mem_map_of_mem Prod.fst he)
      simp [Finset.mem_erase, this]
    · have hsome := hpres (tid, path) (List.mem_cons_self _ _)
      rcases Option.isSome_iff_exists.mp hsome with ⟨sz, hsz⟩
      simp only [clean_sync_list, if_neg hp, hsz, List.filter_cons, decide_eq_true_eq, hp]
      simp only [decide_False, Bool.false_eq_true, if_false]
      rw [ih plan (eraseKey disk path) hk.2 hv.2 ?_]
      intro e he
      have hne : e.2 ≠ path := fun hx => hv.1 (hx ▸ List.mem_map_of_mem Prod.snd he)
      rw [lookupKey_eraseKey_ne disk path e.2 hne]
      exact hpres e (List.mem_cons_of_mem _ he)

theorem clean_disk_lookup_preserved :
    ∀ (store : List (String × String)) (plan : Finset String) (disk : List (String × Nat)),
      (store.map Prod.fst).Nodup → (store.map Prod.snd).Nodup →
      (∀ e ∈ store, (lookupKey disk e.2).isSome) →
      ∀ p, p ∉ (store.filter (fun e => decide (e.1 ∉ plan))).map Prod.snd →
        lookupKey (clean_sync_list store plan disk).2.2 p = lookupKey disk p := by
  intro store
  induction store with
  | nil => intro plan disk _ _ _ p _; simp [clean_sync_list]
  | cons f rest ih =>
    intro plan disk hk hv hpres p hp
    rcases f with ⟨tid, path⟩
    simp only [List.map_cons, List.nodup_cons] at hk hv
    by_cases hpl : tid ∈ plan
    · simp only [clean_sync_list, if_pos hpl]
      rw [ih (plan.erase tid) disk hk.2 hv.2
        (fun e he => hpres e (List.mem_cons_of_mem _ he))]
      intro hmem
      apply hp
      simp only [List.filter_cons, decide_eq_true_eq]
      rw [if_neg (by simp [hpl])]
      rcases List.mem_map.mp hmem with ⟨e, he, hsnd⟩
      rcases List.mem_filter.mp he with ⟨he1, he2⟩
      have : e.1 ≠ tid := fun hx => hk.1 (hx ▸ List.mem_map_of_mem Prod.fst he1)
      refine List.mem_map.mpr ⟨e, List.mem_filter.mpr ⟨he1, ?_⟩, hsnd⟩
      simp only [decide_eq_true_eq] at he2 ⊢
      intro hplan
      exact he2 (Finset.mem_erase.mpr ⟨this, hplan⟩)
    · have hsome := hpres (tid, path) (List.mem_cons_self _ _)
      rcases Option.isSome_iff_exists.mp hsome with ⟨sz, hsz⟩
      simp only [clean_sync_list, if_neg hpl, hsz]
      have hppath : p ≠ path := by
        intro hx
        apply hp
        simp only [List.filter_cons, decide_eq_true_eq]
        rw [if_pos (by simp [hpl])]
        exact hx ▸ List.mem_cons_self _ _
      rw [ih plan (eraseKey disk path) hk.2 hv.2 ?_ p ?_]
      · exact lookupKey_eraseKey_ne disk path p hppath
      · intro e he
        have hne : e.2 ≠ path := fun hx => hv.1 (hx ▸ List.mem_map_of_mem Prod.snd he)
        rw [lookupKey_eraseKey_ne disk path e.2 hne]
        exact hpres e (List.mem_cons_of_mem _ he)
      · intro hmem
        apply hp
        simp only [List.filter_cons, decide_eq_true_eq]
        rw [if_pos (by simp [hpl])]
        exact List.mem_cons_of_mem _ hmem

theorem clean_disk_used :
    ∀ (store : List (String × String)) (plan : Finset String) (disk : List (String × Nat)),
      (store.map Prod.fst).Nodup → (store.map Prod.snd).Nodup →
      (∀ e ∈ store, (lookupKey disk e.2).isSome) →
      usedBytes (clean_sync_list store plan disk).2.2 +
        ((store.filter (fun e => decide (e.1 ∉ plan))).map
          (fun e => (lookupKey disk e.2).getD 0)).sum = usedBytes disk := by
  intro store
  induction store with
  | nil => intro plan disk _ _ _; simp [clean_sync_list]
  | cons f rest ih =>
    intro plan disk hk hv hpres
    rcases f with ⟨tid, path⟩
    simp only [List.map_cons, List.nodup_cons] at hk hv
    by_cases hpl : tid ∈ plan
    · simp only [clean_sync_list, if_pos hpl, List.filter_cons, decide_eq_true_eq]
      rw [if_neg (by simp [hpl])]
      have hcong :
          (rest.filter (fun e => decide (e.1 ∉ plan.erase tid))).map
              (fun e => (lookupKey disk e.2).getD 0) =
            (rest.filter (fun e => decide (e.1 ∉ plan))).map
              (fun e => (lookupKey disk e.2).getD 0) := by
        congr 1
        apply List.filter_congr
        intro e he
        have : e.1 ≠ tid := fun hx => hk.1 (hx ▸ List.mem_map_of_mem Prod.fst he)
        simp [Finset.mem_erase, this]
      have := ih (plan.erase tid) disk hk.2 hv.2
        (fun e he => hpres e (List.mem_cons_of_mem _ he))
      rw [hcong] at this
      exact this
    · have hsome := hpres (tid, path) (List.mem_cons_self _ _)
      rcases Option.isSome_iff_exists.mp hsome with ⟨sz, hsz⟩
      simp only [clean_sync_list, if_neg hpl, hsz, List.filter_cons, decide_eq_true_eq]
      rw [if_pos (by simp [hpl])]
      simp only [List.map_cons, List.sum_cons, hsz, Option.getD_some]
      have hpres2 : ∀ e ∈ rest, (lookupKey (eraseKey disk path) e.2).isSome := by
        intro e he
        have hne : e.2 ≠ path := fun hx => hv.1 (hx ▸ List.mem_map_of_mem Prod.snd he)
        rw [lookupKey_eraseKey_ne disk path e.2 hne]
        exact hpres e (List.mem_cons_of_mem _ he)
      have hcong :
          (rest.filter (fun e => decide (e.1 ∉ plan))).map
              (fun e => (lookupKey (eraseKey disk path) e.2).getD 0) =
            (rest.filter (fun e => decide (e.1 ∉ plan))).map
              (fun e => (lookupKey disk e.2).getD 0) := by
        apply List.map_congr_left
        intro e he
        have hne : e.2 ≠ path :=
          fun hx => hv.1 (hx ▸ List.mem_map_of_mem Prod.snd (List.mem_of_mem_filter he))
        rw [lookupKey_eraseKey_ne disk path e.2 hne]
      have hih := ih plan (eraseKey disk path) hk.2 hv.2 hpres2
      rw [hcong] at hih
      have herase := usedBytes_eraseKey disk path sz hsz
      omega

/-- Claim C5 counterexample: with random fill enabled the pipeline is not
idempotent.  Two 600-byte tracks, no filters, effective budget 600: the
first run's draw order admits and copies `t1`; the second run's draw
order considers `t2` first and admits it, so the second
`generate_sync_list` returns the non-empty tracks-to-copy set containing
`t2` — the copy phase of the second run is not empty, although catalog
and filters are unchanged, every copy succeeded and nothing was
cancelled. -/
theorem pipeline_idempotent_counterexample :
    (generate_sync_list [] true [trackP1, trackP2] [trackP2, trackP1]
      (5 * 1024 * 1024 + 600)
      (run_pipeline [] true [trackP1, trackP2] [trackP1, trackP2]
        (5 * 1024 * 1024 + 600) (fun _ => CopyOutcome.success) false false false
        (fun _ => false)
        ⟨filtersNone, filtersNone, ∅, [], []⟩)).tracks = {"t2"} ∧
    ({"t2"} : Finset String) ≠ (∅ : Finset String) := by
  constructor
  · decide
  · decide

/-- Claim C5 (amended): with random fill disabled, a fresh engine (empty
in-memory plan), catalog tracks with pairwise-distinct persistent ids and
pairwise-distinct filenames, copied filenames absent from the destination
tree, and a state store with distinct keys and distinct paths: if a run
(`generate_sync_list` followed by `copy_tracks`) completes with every
copy successful and no cancellation, then running `generate_sync_list`
again with the same catalog and unchanged filters yields an empty
tracks-to-copy set.  (With random fill enabled the statement fails — see
the counterexample — and filename collisions between copied tracks would
double-count reclaimable space on the next run.) -/
theorem pipeline_idempotent (pls : List Playlist) (ex inc : HibikiConfigFilters)
    (catalog fillOrder fillOrder2 : List Track) (cap : Int)
    (store0 : List (String × String)) (disk0 : List (String × Nat))
    (hb he ha : Bool)
    (hcatId : (catalog.map Track.persistent_id).Nodup)
    (hcatFn : (catalog.map Track.filename).Nodup)
    (hfresh : ∀ t ∈ catalog, lookupKey disk0 t.filename = none)
    (hsk : (store0.map Prod.fst).Nodup)
    (hsv : (store0.map Prod.snd).Nodup) :
    (generate_sync_list pls false catalog fillOrder2 cap
      (run_pipeline pls false catalog fillOrder cap (fun _ => CopyOutcome.success)
        hb he ha (fun _ => false)
        ⟨ex, inc, ∅, store0, disk0⟩)).tracks = ∅ := by
  set ex1 := get_playlist_tracks pls ex with hex1
  set inc1 := get_playlist_tracks pls inc with hinc1
  set cs1 := calculate_space cap disk0 store0 with hcs1
  set B1 := cs1.1 with hB1
  set store1 := cs1.2 with hstore1
  set A := main_admitted ex1 inc1 catalog B1 with hA
  set mp1 := main_pass ex1 inc1 catalog B1 (∅ : Finset String) with hmp1
  set P1 := mp1.2 with hP1
  set cl1 := clean_sync_list store1 P1 disk0 with hcl1
  set L := cl1.2.1 with hL
  set store2 := cl1.1 with hstore2
  set disk1 := cl1.2.2 with hdisk1
  set copied := catalog.filter (fun t => decide (t.persistent_id ∈ L)) with hcopied
  -- characterizations of run 1
  have hstore1eq : store1 = store0.filter (fun e => (lookupKey disk0 e.2).isSome) := by
    rw [hstore1, hcs1]
    exact (calculate_space_correct cap disk0 store0).1
  have hk1 : (store1.map Prod.fst).Nodup := by
    rw [hstore1eq]
    exact ((List.filter_sublist store0).map Prod.fst).nodup hsk
  have hv1 : (store1.map Prod.snd).Nodup := by
    rw [hstore1eq]
    exact ((List.filter_sublist store0).map Prod.snd).nodup hsv
  have hpres1 : ∀ e ∈ store1, (lookupKey disk0 e.2).isSome := by
    rw [hstore1eq]
    intro e he
    exact (List.mem_filter.mp he).2
  have hP1eq : P1 = idsOf A := by
    rw [hP1, hmp1, main_pass_plan_eq, hA]
    exact Finset.empty_union _
  have hLchar : L = P1 \ (store1.map Prod.fst).toFinset := by
    rw [hL, hcl1]
    exact clean_plan_eq store1 P1 disk0
  have hstore2eq : store2 = store1.filter (fun e => decide (e.1 ∈ P1)) := by
    rw [hstore2, hcl1]
    exact clean_store_all_present store1 P1 disk0 hk1 hv1 hpres1
  have hstore2sub : ∀ e ∈ store2, e ∈ store1 := by
    rw [hstore2eq]
    exact fun e he => List.mem_of_mem_filter he
  have hgen1 : generate_sync_list pls false catalog fillOrder cap ⟨ex, inc, ∅, store0, disk0⟩ =
      ⟨ex1, inc1, L, store2, disk1⟩ := by
    rw [hex1, hinc1, hL, hstore2, hdisk1, hcl1, hstore1, hP1, hmp1, hB1, hcs1]
    rfl
  -- copy phase characterization
  have hfresh_store : ∀ t ∈ copied, lookupKey store2 t.persistent_id = none := by
    intro t ht
    have hidL : t.persistent_id ∈ L := by
      have := (List.mem_filter.mp ht).2
      simpa using this
    apply lookupKey_eq_none_of_not_mem
    intro hmem
    have hxk : t.persistent_id ∈ store1.map Prod.fst := by
      rw [hstore2eq] at hmem
      rcases List.mem_map.mp hmem with ⟨e, he, hfst⟩
      exact hfst ▸ List.mem_map_of_mem Prod.fst (List.mem_of_mem_filter he)
    rw [hLchar] at hidL
    exact (Finset.mem_sdiff.mp hidL).2 (List.mem_toFinset.mpr hxk)
  have hfresh_disk : ∀ t ∈ copied, lookupKey disk1 t.filename = none := by
    intro t ht
    rw [hdisk1, hcl1]
    exact lookupKey_clean_disk_none store1 P1 disk0 t.filename
      (hfresh t (List.mem_of_mem_filter ht))
  have hcop_id_nodup : (copied.map Track.persistent_id).Nodup := by
    rw [hcopied]
    exact ((List.filter_sublist catalog).map Track.persistent_id).nodup hcatId
  have hcop_fn_nodup : (copied.map Track.filename).Nodup := by
    rw [hcopied]
    exact ((List.filter_sublist catalog).map Track.filename).nodup hcatFn
  set store3 := store2 ++ copied.map (fun t => (t.persistent_id, t.filename)) with hstore3
  set disk2 := disk1 ++ copied.map (fun t => (t.filename, t.size)) with hdisk2
  have hcopyres := copy_tracks_loop_success hb he ha L catalog 0
    ⟨none, store2, disk1, [], none⟩ rfl
  have hrun : run_pipeline pls false catalog fillOrder cap (fun _ => CopyOutcome.success)
      hb he ha (fun _ => false) ⟨ex, inc, ∅, store0, disk0⟩ = ⟨ex1, inc1, L, store3, disk2⟩ := by
    have hcstore : (copy_tracks (fun _ => CopyOutcome.success) hb he ha (fun _ => false)
        L catalog store2 disk1).store = store3 := by
      rw [show copy_tracks (fun _ => CopyOutcome.success) hb he ha (fun _ => false)
          L catalog store2 disk1 =
          copy_tracks_loop (fun _ => CopyOutcome.success) hb he ha (fun _ => false)
            L catalog 0 ⟨none, store2, disk1, [], none⟩ from rfl]
      rw [hcopyres.1, hstore3, hcopied]
      exact foldl_upsert_append Track.persistent_id Track.filename copied store2
        hfresh_store hcop_id_nodup
    have hcdisk : (copy_tracks (fun _ => CopyOutcome.success) hb he ha (fun _ => false)
        L catalog store2 disk1).disk = disk2 := by
      rw [show copy_tracks (fun _ => CopyOutcome.success) hb he ha (fun _ => false)
          L catalog store2 disk1 =
          copy_tracks_loop (fun _ => CopyOutcome.success) hb he ha (fun _ => false)
            L catalog 0 ⟨none, store2, disk1, [], none⟩ from rfl]
      rw [hcopyres.2.1, hdisk2, hcopied]
      exact foldl_upsert_append Track.filename Track.size copied disk1
        hfresh_disk hcop_fn_nodup
    simp only [run_pipeline, hgen1, hcstore, hcdisk]
  -- entries of store2 keep their files through clean and copy
  have hnotdrop : ∀ e ∈ store2,
      e.2 ∉ (store1.filter (fun e2 => decide (e2.1 ∉ P1))).map Prod.snd := by
    intro e he hmem
    rcases List.mem_map.mp hmem with ⟨e2, he2, hsnd⟩
    have hpred := (List.mem_filter.mp he2).2
    have heq : e2 = e :=
      List.inj_on_of_nodup_map hv1 (List.mem_of_mem_filter he2) (hstore2sub e he) hsnd
    have hepred : decide (e.1 ∈ P1) = true := by
      rw [hstore2eq] at he
      exact (List.mem_filter.mp he).2
    rw [heq] at hpred
    simp only [decide_eq_true_eq] at hpred hepred
    exact hpred hepred
  have hkeep1 : ∀ e ∈ store2, lookupKey disk1 e.2 = lookupKey disk0 e.2 := by
    intro e he
    rw [hdisk1, hcl1]
    exact clean_disk_lookup_preserved store1 P1 disk0 hk1 hv1 hpres1 e.2 (hnotdrop e he)
  have hkeep2 : ∀ e ∈ store2, lookupKey disk2 e.2 = lookupKey disk0 e.2 := by
    intro e he
    rcases Option.isSome_iff_exists.mp (hpres1 e (hstore2sub e he)) with ⟨v, hv⟩
    have h1 : lookupKey disk1 e.2 = some v := (hkeep1 e he).trans hv
    rw [hdisk2, lookupKey_append_some disk1 _ e.2 v h1]
    exact hv.symm
  have hcoplookup : ∀ t ∈ copied, lookupKey disk2 t.filename = some t.size := by
    intro t ht
    rw [hdisk2, lookupKey_append_none disk1 _ t.filename (hfresh_disk t ht)]
    exact lookupKey_map_pairs Track.filename Track.size copied hcop_fn_nodup t ht
  have hpres3 : ∀ e ∈ store3, (lookupKey disk2 e.2).isSome := by
    intro e he
    rw [hstore3] at he
    rcases List.mem_append.mp he with he | he
    · rw [hkeep2 e he]
      exact hpres1 e (hstore2sub e he)
    · rcases List.mem_map.mp he with ⟨t, ht, hpair⟩
      rw [← hpair]
      rw [show (t.persistent_id, t.filename).2 = t.filename from rfl, hcoplookup t ht]
      rfl
  have hstore3p : (calculate_space cap disk2 store3).2 = store3 := by
    rw [(calculate_space_correct cap disk2 store3).1]
    exact List.filter_eq_self.mpr (fun e he => hpres3 e he)
  -- budget bookkeeping: the second run starts from the same effective budget
  set Skept := (store2.map (fun e => (lookupKey disk0 e.2).getD 0)).sum with hSkept
  set Sdrop := ((store1.filter (fun e => decide (e.1 ∉ P1))).map
    (fun e => (lookupKey disk0 e.2).getD 0)).sum with hSdrop
  set Scop := (copied.map Track.size).sum with hScop
  set S1 := (store1.map (fun e => (lookupKey disk0 e.2).getD 0)).sum with hS1
  have hB1val : B1 = space_available cap disk0 5 + (S1 : Int) := by
    rw [hB1, hcs1, hS1, calculate_space, calculate_space_loop_avail disk0 store0, hstore1eq,
      sum_getD_filter_isSome disk0 store0]
  have hS1split : S1 = Skept + Sdrop := by
    rw [hS1, hSkept, hSdrop, hstore2eq]
    rw [show store1.filter (fun e => decide (e.1 ∉ P1)) =
        store1.filter (fun e => !(decide (e.1 ∈ P1))) from
      List.filter_congr (fun e _ => by simp [decide_not])]
    exact (sum_filter_partition (fun e => decide (e.1 ∈ P1))
      (fun e => (lookupKey disk0 e.2).getD 0) store1).symm
  have hused : usedBytes disk1 + Sdrop = usedBytes disk0 := by
    rw [hdisk1, hcl1, hSdrop]
    exact clean_disk_used store1 P1 disk0 hk1 hv1 hpres1
  have hused2 : usedBytes disk2 = usedBytes disk1 + Scop := by
    rw [hdisk2, hScop]
    simp only [usedBytes, List.map_append, List.sum_append, List.map_map]
    exact congrArg (fun n => (disk1.map Prod.snd).sum + n)
      (congrArg List.sum (List.map_congr_left (fun t _ => rfl)))
  have hS3split : (store3.map (fun e => (lookupKey disk2 e.2).getD 0)).sum = Skept + Scop := by
    rw [hstore3, List.map_append, List.sum_append]
    congr 1
    · rw [hSkept]
      congr 1
      exact List.map_congr_left (fun e he => by rw [hkeep2 e he])
    · rw [hScop, List.map_map]
      apply congrArg
      apply List.map_congr_left
      intro t ht
      simp only [Function.comp_apply]
      rw [hcoplookup t ht]
      rfl
  have hB2 : (calculate_space cap disk2 store3).1 = B1 := by
    rw [calculate_space, calculate_space_loop_avail disk2 store3, hS3split, hB1val, hS1split]
    simp only [space_available]
    have := hused
    have := hused2
    push_cast
    omega
  -- the second run finds the plan already satisfied
  have hresex : ∀ t, (get_playlist_tracks pls ex1).is_filtered t = ex1.is_filtered t := by
    intro t
    rw [hex1]
    exact is_filtered_resolve_twice pls ex t
  have hresinc : ∀ t, (get_playlist_tracks pls inc1).is_filtered t = inc1.is_filtered t := by
    intro t
    rw [hinc1]
    exact is_filtered_resolve_twice pls inc t
  have hgoal : (generate_sync_list pls false catalog fillOrder2 cap
      ⟨ex1, inc1, L, store3, disk2⟩).tracks =
      (clean_sync_list (calculate_space cap disk2 store3).2
        (main_pass (get_playlist_tracks pls ex1) (get_playlist_tracks pls inc1) catalog
          (calculate_space cap disk2 store3).1 L).2 disk2).2.1 := rfl
  rw [hrun, hgoal, hstore3p, hB2,
    main_pass_congr ex1 (get_playlist_tracks pls ex1) inc1 (get_playlist_tracks pls inc1)
      hresex hresinc catalog B1 L]
  have hP2 : (main_pass ex1 inc1 catalog B1 L).2 = P1 := by
    rw [main_pass_plan_eq, ← hA, ← hP1eq]
    exact Finset.union_eq_right.mpr (by rw [hLchar]; exact Finset.sdiff_subset)
  rw [hP2, clean_plan_eq store3 P1 disk2]
  apply Finset.sdiff_eq_empty_iff_subset.mpr
  intro x hx
  rw [List.mem_toFinset]
  by_cases hxk : x ∈ (store1.map Prod.fst).toFinset
  · rcases List.mem_map.mp (List.mem_toFinset.mp hxk) with ⟨e, he, hfst⟩
    have he2 : e ∈ store2 := by
      rw [hstore2eq]
      refine List.mem_filter.mpr ⟨he, ?_⟩
      simp only [decide_eq_true_eq]
      rw [hfst]
      exact hx
    have he3 : e ∈ store3 := by
      rw [hstore3]
      exact List.mem_append_left _ he2
    exact hfst ▸ List.mem_map_of_mem Prod.fst he3
  · have hxL : x ∈ L := by
      rw [hLchar]
      exact Finset.mem_sdiff.mpr ⟨hx, hxk⟩
    have hx2 := hx
    rw [hP1eq] at hx2
    rcases (by simpa [idsOf] using hx2 : ∃ a ∈ A, a.persistent_id = x) with ⟨t, htA, hid⟩
    have htc : t ∈ catalog := (main_admitted_sub ex1 inc1 catalog B1 t htA).1
    have htcop : t ∈ copied := by
      rw [hcopied]
      exact List.mem_filter.mpr ⟨htc, by simp [hid, hxL]⟩
    have hpair : (t.persistent_id, t.filename) ∈ store3 := by
      rw [hstore3]
      exact List.mem_append_right _ (List.mem_map_of_mem _ htcop)
    rw [← hid]
    exact List.mem_map_of_mem Prod.fst hpair

/-- Claim C5 witness: the amended idempotence statement applied to a
one-track catalog synced onto an empty destination. -/
theorem pipeline_idempotent_witness :
    (([trackA1].map Track.persistent_id).Nodup ∧ ([trackA1].map Track.filename).Nodup) ∧
    (generate_sync_list [] false [trackA1] [] (5 * 1024 * 1024 + 1000)
      (run_pipeline [] false [trackA1] [] (5 * 1024 * 1024 + 1000)
        (fun _ => CopyOutcome.success) false false false (fun _ => false)
        ⟨filtersNone, filtersAlbumA, ∅, [], []⟩)).tracks = ∅ :=
  ⟨⟨by decide, by decide⟩,
   pipeline_idempotent [] filtersNone filtersAlbumA [trackA1] [] []
     (5 * 1024 * 1024 + 1000) [] [] false false false
     (by decide) (by decide) (fun t _ => rfl) (by decide) (by decide)⟩
